import Mathlib

/-!
# Verification of the buny declarative-tree renderer

A shallow embedding, in Lean 4, of the core of the `buny` repository:

* the JavaScript value model produced by rendering (`Value`),
* the deep-merge engine (`deepMerge`, from `deepMerge` in the source),
* the tree renderer (`renderToObject`),
* the dependency resolver (`depends`, `unravelOrderOfDependencies`),
* the batch driver (`renderFile`),
* a heap model of `deepMerge` used to state that it never mutates its
  inputs.

JavaScript machine numbers are modelled as exact rationals extended with
the two signed infinities; floating-point rounding and overflow are
outside the model (every numeral denotes its exact mathematical value).
`NaN` results of `Number(...)` are modelled by `Option.none`.
-/

/-- A JavaScript number as used by the renderer: an exact rational or one of
the signed infinities.  The renderer never computes with numbers (it only
stores them), so exact rationals are a faithful carrier for every finite
numeral; rounding to binary64 is outside the model. -/
inductive JSNum where
  | finite (q : Rat)
  | posInf
  | negInf
deriving DecidableEq, Repr

/-- The plain JavaScript values produced by `renderToObject`:
null, booleans, numbers, strings, arrays, and insertion-ordered
string-keyed objects (modelled as association lists in key-insertion
order, mirroring JS object key order for non-index keys). -/
inductive Value where
  | null
  | bool (b : Bool)
  | num (n : JSNum)
  | str (s : String)
  | arr (xs : List Value)
  | obj (es : List (String × Value))
deriving Repr

/-- `isObject` from the source: `item && typeof item === 'object' &&
!Array.isArray(item)`.  True exactly for non-null, non-array objects. -/
def isObject : Value → Bool
  | .obj _ => true
  | _ => false

/-- Is the value a JS array (`Array.isArray`)? -/
def isArrayV : Value → Bool
  | .arr _ => true
  | _ => false

/-- The own enumerable entries produced by a JS object spread `{ ...v }`:
objects give their entries, arrays and strings give their index/character
entries, every other value gives no entries. -/
def spreadEntries : Value → List (String × Value)
  | .obj es => es
  | .arr xs => (List.range xs.length).zip xs |>.map (fun p => (toString p.1, p.2))
  | .str s => (List.range s.length).zip s.toList |>.map (fun p => (toString p.1, Value.str p.2.toString))
  | _ => []

/-- Property read `es[k]` on an association list: the first binding of `k`
(JS objects have at most one binding per key). -/
def getKey {β : Type} (es : List (String × β)) (k : String) : Option β :=
  (es.find? (fun p => p.1 = k)).map Prod.snd

/-- Property write `es[k] = v` with JS semantics: an existing key keeps its
position and is overwritten, a new key is appended at the end. -/
def setKey {β : Type} : List (String × β) → String → β → List (String × β)
  | [], k, v => [(k, v)]
  | (k', v') :: rest, k, v =>
      if k' = k then (k', v) :: rest else (k', v') :: setKey rest k v

/-- The keys of an association list, in order. -/
def keysOf {β : Type} (es : List (String × β)) : List String :=
  es.map Prod.fst

/-- The apostrophe character, kept out of string literals. -/
def apos : String := (Char.ofNat 39).toString

/-- The message of the error thrown by `deepMerge` on a scalar key
collision (`MergeConflictError` in the specification's taxonomy). -/
def mergeErrorMessage (k : String) : String :=
  "The key \"" ++ k ++ "\" cannot be merged as it isn" ++ apos ++
    "t itself an object and already exists in the target object."

/-- The array value stored by the `Array.isArray(source[key])` branch of
`deepMerge`: `[...target[key], ...source[key]]` when the target holds an
array at the key, else a copy `[...source[key]]`. -/
def arrayMergeValue (tv : Option Value) (sv : Value) : Value :=
  match tv, sv with
  | some (.arr txs), .arr sxs => Value.arr (txs ++ sxs)
  | _, .arr sxs => Value.arr sxs
  | _, sv => sv

theorem sizeOf_pair_snd_lt {p : String × Value}
    {l : List (String × Value)} (h : p ∈ l) : sizeOf p.2 < sizeOf l := by
  have h1 : sizeOf p < sizeOf l := List.sizeOf_lt_of_mem h
  obtain ⟨k, sv⟩ := p
  simp only [Prod.mk.sizeOf_spec] at h1 ⊢
  omega

/-- `deepMerge` from the source.  `output` starts as the spread copy
`{ ...target }`; only when both arguments satisfy `isObject` does the
`Object.keys(source).forEach` loop run: an object-valued source entry
recurses (or is adopted when the key is absent from the target), an
array-valued entry concatenates onto a target array (or is copied), and
any other entry throws the merge-conflict error when its key is already
present in `output`.  When the guard fails, the spread copy of the target
is returned unchanged. -/
def deepMerge (target source : Value) : Except String Value :=
  match target, source with
  | .obj tEs, .obj sEs =>
      (sEs.attach.foldlM
        (fun out p =>
          if isObject p.1.2 then
            match getKey tEs p.1.1 with
            | none => Except.ok (setKey out p.1.1 p.1.2)
            | some tv => do
                let m ← deepMerge tv p.1.2
                Except.ok (setKey out p.1.1 m)
          else if isArrayV p.1.2 then
            Except.ok (setKey out p.1.1 (arrayMergeValue (getKey tEs p.1.1) p.1.2))
          else
            if (getKey out p.1.1).isSome then Except.error (mergeErrorMessage p.1.1)
            else Except.ok (setKey out p.1.1 p.1.2))
        (spreadEntries (Value.obj tEs))).map Value.obj
  | t, _ => .ok (.obj (spreadEntries t))
termination_by sizeOf source
decreasing_by
  simp only [Value.obj.sizeOf_spec]
  have := sizeOf_pair_snd_lt p.2
  omega

/-- The `forEach` loop of `deepMerge` as a first-class structurally
recursive function, parameterized by the recursive merge `dm`; processes
the remaining source entries against the fixed target entries `tEs`,
threading the evolving `output` association list.  `deepMerge` on two
objects runs exactly this loop with `dm := deepMerge`
(`deepMerge_obj_obj`). -/
def mergeEntriesWith (dm : Value → Value → Except String Value)
    (tEs : List (String × Value)) :
    List (String × Value) → List (String × Value) →
    Except String (List (String × Value))
  | [], out => .ok out
  | (k, sv) :: rest, out =>
      if isObject sv then
        match getKey tEs k with
        | none => mergeEntriesWith dm tEs rest (setKey out k sv)
        | some tv => do
            let m ← dm tv sv
            mergeEntriesWith dm tEs rest (setKey out k m)
      else if isArrayV sv then
        mergeEntriesWith dm tEs rest (setKey out k (arrayMergeValue (getKey tEs k) sv))
      else
        if (getKey out k).isSome then .error (mergeErrorMessage k)
        else mergeEntriesWith dm tEs rest (setKey out k sv)

theorem foldlM_attach_val {α β : Type} {m : Type → Type} [Monad m]
    (l : List α) (g : β → α → m β) (init : β) :
    l.attach.foldlM (fun b p => g b p.1) init = l.foldlM g init := by
  conv_rhs => rw [← List.attach_map_subtype_val l]
  rw [List.foldlM_map]

/-- Unfolding equation for `deepMerge` on two objects: the source entries
are processed by the forEach loop, recursing through `deepMerge` itself,
with the output accumulator starting as the spread copy of the target. -/
theorem deepMerge_obj_obj (tEs sEs : List (String × Value)) :
    deepMerge (.obj tEs) (.obj sEs) =
      (mergeEntriesWith deepMerge tEs sEs
        (spreadEntries (Value.obj tEs))).map Value.obj := by
  rw [deepMerge.eq_def]
  simp only []
  congr 1
  refine Eq.trans
    (foldlM_attach_val sEs
      (fun out q =>
        if isObject q.2 then
          match getKey tEs q.1 with
          | none => Except.ok (setKey out q.1 q.2)
          | some tv => do
              let m ← deepMerge tv q.2
              Except.ok (setKey out q.1 m)
        else if isArrayV q.2 then
          Except.ok (setKey out q.1 (arrayMergeValue (getKey tEs q.1) q.2))
        else
          if (getKey out q.1).isSome then Except.error (mergeErrorMessage q.1)
          else Except.ok (setKey out q.1 q.2))
      (spreadEntries (Value.obj tEs))) ?_
  generalize spreadEntries (Value.obj tEs) = out
  induction sEs generalizing out with
  | nil => rfl
  | cons p rest ih =>
      obtain ⟨k, sv⟩ := p
      rw [List.foldlM_cons]
      simp only [mergeEntriesWith]
      by_cases ho : isObject sv = true
      · simp only [ho, if_pos]
        cases hg : getKey tEs k with
        | none =>
            simp only [bind, Except.bind]
            exact ih (setKey out k sv)
        | some tv =>
            cases hm : deepMerge tv sv with
            | error e => simp [bind, Except.bind, hm]
            | ok m =>
                simp only [bind, Except.bind, hm]
                exact ih (setKey out k m)
      · simp only [ho, Bool.false_eq_true, if_false]
        by_cases ha : isArrayV sv = true
        · simp only [ha, if_pos, bind, Except.bind]
          exact ih _
        · simp only [ha, Bool.false_eq_true, if_false]
          by_cases hk : (getKey out k).isSome
          · simp [hk, bind, Except.bind]
          · simp only [hk, Bool.false_eq_true, if_false, bind, Except.bind]
            exact ih _

/-- Unfolding equation for `deepMerge` when the `isObject` guard fails:
the result is just the spread copy of the target, and the source is
ignored. -/
theorem deepMerge_not_both (t s : Value)
    (h : ¬(isObject t = true ∧ isObject s = true)) :
    deepMerge t s = .ok (.obj (spreadEntries t)) := by
  rw [deepMerge.eq_def]
  cases t <;> cases s <;> simp_all [isObject]

theorem keysOf_cons {β : Type} (k : String) (v : β) (rest : List (String × β)) :
    keysOf ((k, v) :: rest) = k :: keysOf rest := rfl

theorem keysOf_append {β : Type} (l₁ l₂ : List (String × β)) :
    keysOf (l₁ ++ l₂) = keysOf l₁ ++ keysOf l₂ := by
  simp [keysOf]

theorem setKey_cons {β : Type} (k' : String) (v' : β) (rest : List (String × β))
    (k : String) (v : β) :
    setKey ((k', v') :: rest) k v =
      if k' = k then (k', v) :: rest else (k', v') :: setKey rest k v := rfl

theorem getKey_cons {β : Type} (k' : String) (v' : β) (rest : List (String × β)) (k : String) :
    getKey ((k', v') :: rest) k = if k' = k then some v' else getKey rest k := by
  by_cases h : k' = k
  · simp [getKey, List.find?_cons_of_pos, h]
  · simp only [getKey, if_neg h]
    rw [List.find?_cons_of_neg]
    simp [h]

theorem getKey_eq_none_iff {β : Type} (es : List (String × β)) (k : String) :
    getKey es k = none ↔ k ∉ keysOf es := by
  induction es with
  | nil => simp [getKey, keysOf]
  | cons p rest ih =>
      obtain ⟨k', v'⟩ := p
      rw [getKey_cons, keysOf_cons]
      by_cases h : k' = k
      · subst h
        simp
      · rw [if_neg h, ih]
        constructor
        · intro hh hc
          rcases List.mem_cons.mp hc with hc | hc
          · exact h hc.symm
          · exact hh hc
        · intro hh hc
          exact hh (List.mem_cons_of_mem _ hc)

theorem getKey_isSome_iff {β : Type} (es : List (String × β)) (k : String) :
    (getKey es k).isSome = true ↔ k ∈ keysOf es := by
  cases hg : getKey es k with
  | none =>
      have := (getKey_eq_none_iff es k).mp hg
      simp [this]
  | some v =>
      simp only [Option.isSome_some, true_iff]
      by_contra hc
      have := (getKey_eq_none_iff es k).mpr hc
      rw [hg] at this
      exact Option.noConfusion this

theorem getKey_setKey_self {β : Type} (es : List (String × β)) (k : String) (v : β) :
    getKey (setKey es k v) k = some v := by
  induction es with
  | nil => simp [setKey, getKey_cons]
  | cons p rest ih =>
      obtain ⟨k', v'⟩ := p
      by_cases h : k' = k
      · subst h
        simp [setKey, getKey_cons]
      · simp only [setKey, if_neg h]
        rw [getKey_cons, if_neg h]
        exact ih

theorem getKey_setKey_ne {β : Type} (es : List (String × β)) (k k' : String) (v : β)
    (h : k' ≠ k) : getKey (setKey es k v) k' = getKey es k' := by
  have h' : ¬ k = k' := fun hh => h hh.symm
  induction es with
  | nil =>
      simp only [setKey]
      rw [getKey_cons, if_neg h']
  | cons p rest ih =>
      obtain ⟨k0, v0⟩ := p
      by_cases h0 : k0 = k
      · subst h0
        rw [setKey_cons, if_pos rfl]
        rw [getKey_cons, getKey_cons, if_neg h', if_neg h']
      · rw [setKey_cons, if_neg h0]
        rw [getKey_cons, getKey_cons]
        by_cases h1 : k0 = k'
        · simp [h1]
        · rw [if_neg h1, if_neg h1]
          exact ih

theorem setKey_of_not_mem {β : Type} (es : List (String × β)) (k : String) (v : β)
    (h : k ∉ keysOf es) : setKey es k v = es ++ [(k, v)] := by
  induction es with
  | nil => rfl
  | cons p rest ih =>
      obtain ⟨k', v'⟩ := p
      rw [keysOf_cons] at h
      have h1 : ¬ k' = k := fun hh => h (by rw [hh]; exact List.mem_cons_self _ _)
      have h2 : k ∉ keysOf rest := fun hh => h (List.mem_cons_of_mem _ hh)
      simp only [setKey, if_neg h1, List.cons_append]
      rw [ih h2]

theorem keysOf_setKey_mem {β : Type} (es : List (String × β)) (k : String) (v : β)
    (h : k ∈ keysOf es) : keysOf (setKey es k v) = keysOf es := by
  induction es with
  | nil => simp [keysOf] at h
  | cons p rest ih =>
      obtain ⟨k', v'⟩ := p
      by_cases h0 : k' = k
      · subst h0
        simp [setKey, keysOf]
      · rw [keysOf_cons] at h
        rcases List.mem_cons.mp h with h | h
        · exact absurd h.symm h0
        · simp only [setKey, if_neg h0]
          rw [keysOf_cons, keysOf_cons, ih h]

theorem keysOf_setKey_not_mem {β : Type} (es : List (String × β)) (k : String) (v : β)
    (h : k ∉ keysOf es) : keysOf (setKey es k v) = keysOf es ++ [k] := by
  rw [setKey_of_not_mem es k v h, keysOf_append]
  rfl

theorem getKey_isSome_setKey {β : Type} (es : List (String × β)) (k k' : String) (v : β)
    (h : (getKey es k').isSome = true) : (getKey (setKey es k v) k').isSome = true := by
  by_cases hk : k' = k
  · subst hk
    rw [getKey_setKey_self]
    rfl
  · rw [getKey_setKey_ne es k k' v hk]
    exact h

theorem arrayMergeValue_none (sv : Value) :
    arrayMergeValue none sv = sv := by
  cases sv <;> rfl

/-- Merging entries whose keys are fresh for both the target and the
accumulated output appends them, in order, unchanged. -/
theorem mergeEntriesWith_disjoint (dm : Value → Value → Except String Value)
    (tEs : List (String × Value)) :
    ∀ (l out : List (String × Value)),
      (∀ k, k ∈ keysOf l → getKey tEs k = none) →
      (∀ k, k ∈ keysOf l → k ∉ keysOf out) →
      (keysOf l).Nodup →
      mergeEntriesWith dm tEs l out = .ok (out ++ l) := by
  intro l
  induction l with
  | nil => intro out _ _ _; simp [mergeEntriesWith]
  | cons p rest ih =>
      intro out h1 h2 h3
      obtain ⟨k, sv⟩ := p
      rw [keysOf_cons] at h1 h2 h3
      have hk1 : getKey tEs k = none := h1 k (List.mem_cons_self _ _)
      have hk2 : k ∉ keysOf out := h2 k (List.mem_cons_self _ _)
      have h3' := (List.nodup_cons.mp h3)
      have hrec : ∀ X, X = sv →
          mergeEntriesWith dm tEs rest (setKey out k X) = .ok (out ++ (k, sv) :: rest) := by
        intro X hX
        rw [hX]
        rw [setKey_of_not_mem _ _ _ hk2]
        rw [ih (out ++ [(k, sv)])
          (fun k' hk' => h1 k' (List.mem_cons_of_mem _ hk'))
          (fun k' hk' => by
            rw [keysOf_append]
            intro hc
            rcases List.mem_append.mp hc with hc | hc
            · exact h2 k' (List.mem_cons_of_mem _ hk') hc
            · simp only [keysOf, List.map_cons, List.map_nil, List.mem_singleton] at hc
              subst hc
              exact h3'.1 hk')
          h3'.2]
        rw [List.append_assoc]
        rfl
      simp only [mergeEntriesWith]
      by_cases ho : isObject sv = true
      · rw [if_pos ho, hk1]
        exact hrec sv rfl
      · rw [if_neg ho]
        by_cases ha : isArrayV sv = true
        · rw [if_pos ha, hk1]
          exact hrec _ (arrayMergeValue_none sv)
        · rw [if_neg ha]
          have : getKey out k = none := (getKey_eq_none_iff out k).mpr hk2
          rw [this]
          simp only [Option.isSome_none, Bool.false_eq_true, if_false]
          exact hrec sv rfl

/-- Keys not named by the source entries keep their value in the output. -/
theorem mergeEntriesWith_getKey_not_mem (dm : Value → Value → Except String Value)
    (tEs : List (String × Value)) :
    ∀ (l out res : List (String × Value)) (k : String),
      k ∉ keysOf l →
      mergeEntriesWith dm tEs l out = .ok res →
      getKey res k = getKey out k := by
  intro l
  induction l with
  | nil =>
      intro out res k _ h
      simp only [mergeEntriesWith] at h
      cases h
      rfl
  | cons p rest ih =>
      intro out res k hk h
      obtain ⟨k', sv⟩ := p
      rw [keysOf_cons] at hk
      have hk1 : k ≠ k' := fun hh => hk (hh ▸ List.mem_cons_self _ _)
      have hk2 : k ∉ keysOf rest := fun hh => hk (List.mem_cons_of_mem _ hh)
      simp only [mergeEntriesWith] at h
      by_cases ho : isObject sv = true
      · rw [if_pos ho] at h
        split at h
        · rw [ih _ _ _ hk2 h]
          exact getKey_setKey_ne _ _ _ _ hk1
        · rename_i tv hg
          cases hm : dm tv sv with
          | error e => rw [hm] at h; simp [bind, Except.bind] at h
          | ok m =>
              rw [hm] at h
              simp only [bind, Except.bind] at h
              rw [ih _ _ _ hk2 h]
              exact getKey_setKey_ne _ _ _ _ hk1
      · rw [if_neg ho] at h
        by_cases ha : isArrayV sv = true
        · rw [if_pos ha] at h
          rw [ih _ _ _ hk2 h]
          exact getKey_setKey_ne _ _ _ _ hk1
        · rw [if_neg ha] at h
          by_cases hp : (getKey out k').isSome = true
          · rw [hp] at h
            simp at h
          · rw [Bool.not_eq_true] at hp
            rw [hp] at h
            simp only [Bool.false_eq_true, if_false] at h
            rw [ih _ _ _ hk2 h]
            exact getKey_setKey_ne _ _ _ _ hk1

/-- A key holding arrays in both the target and the source entries ends up
holding the concatenation, target elements first. -/
theorem mergeEntriesWith_arr_concat (dm : Value → Value → Except String Value)
    (tEs : List (String × Value)) :
    ∀ (l out res : List (String × Value)) (k : String) (xs ys : List Value),
      (keysOf l).Nodup →
      (k, Value.arr ys) ∈ l →
      getKey tEs k = some (.arr xs) →
      mergeEntriesWith dm tEs l out = .ok res →
      getKey res k = some (.arr (xs ++ ys)) := by
  intro l
  induction l with
  | nil => intro out res k xs ys _ hm; exact absurd hm (List.not_mem_nil _)
  | cons p rest ih =>
      intro out res k xs ys hnd hm hg h
      obtain ⟨k', sv⟩ := p
      rw [keysOf_cons] at hnd
      have hnd' := List.nodup_cons.mp hnd
      rcases List.mem_cons.mp hm with hm | hm
      · -- the array entry is the head
        have hk : k' = k := by cases hm; rfl
        have hsv : sv = Value.arr ys := by cases hm; rfl
        subst hk
        subst hsv
        simp only [mergeEntriesWith] at h
        rw [if_neg (by simp [isObject]), if_pos (by simp [isArrayV]), hg] at h
        have hrest : k' ∉ keysOf rest := by
          intro hc
          exact hnd'.1 hc
        rw [mergeEntriesWith_getKey_not_mem dm tEs rest _ res k' hrest h]
        rw [getKey_setKey_self]
        rfl
      · -- the array entry is in the tail; the head key differs
        have hk1 : k' ≠ k := by
          intro hh
          subst hh
          exact hnd'.1 (by
            have : k' ∈ keysOf rest := List.mem_map_of_mem Prod.fst hm
            exact this)
        simp only [mergeEntriesWith] at h
        by_cases ho : isObject sv = true
        · rw [if_pos ho] at h
          split at h
          · exact ih _ _ _ _ _ hnd'.2 hm hg h
          · rename_i tv hg'
            cases hmm : dm tv sv with
            | error e => rw [hmm] at h; simp [bind, Except.bind] at h
            | ok m =>
                rw [hmm] at h
                simp only [bind, Except.bind] at h
                exact ih _ _ _ _ _ hnd'.2 hm hg h
        · rw [if_neg ho] at h
          by_cases ha : isArrayV sv = true
          · rw [if_pos ha] at h
            exact ih _ _ _ _ _ hnd'.2 hm hg h
          · rw [if_neg ha] at h
            by_cases hp : (getKey out k').isSome = true
            · rw [hp] at h
              simp at h
            · rw [Bool.not_eq_true] at hp
              rw [hp] at h
              simp only [Bool.false_eq_true, if_false] at h
              exact ih _ _ _ _ _ hnd'.2 hm hg h

/-- A scalar source entry whose key is already bound in the accumulated
output makes the whole loop fail. -/
theorem mergeEntriesWith_scalar_conflict (dm : Value → Value → Except String Value)
    (tEs : List (String × Value)) :
    ∀ (l out : List (String × Value)) (k : String) (sv : Value),
      (k, sv) ∈ l →
      isObject sv = false → isArrayV sv = false →
      (getKey out k).isSome = true →
      ∀ res, mergeEntriesWith dm tEs l out ≠ .ok res := by
  intro l
  induction l with
  | nil => intro out k sv hm; exact absurd hm (List.not_mem_nil _)
  | cons p rest ih =>
      intro out k sv hm ho ha hp res h
      obtain ⟨k', sv'⟩ := p
      rcases List.mem_cons.mp hm with hm | hm
      · have hk : k' = k := by cases hm; rfl
        have hsv : sv' = sv := by cases hm; rfl
        subst hk
        subst hsv
        simp only [mergeEntriesWith] at h
        rw [if_neg (by rw [ho]; exact Bool.false_ne_true),
            if_neg (by rw [ha]; exact Bool.false_ne_true), hp] at h
        simp at h
      · simp only [mergeEntriesWith] at h
        by_cases ho' : isObject sv' = true
        · rw [if_pos ho'] at h
          split at h
          · exact ih _ _ _ hm ho ha (getKey_isSome_setKey _ _ _ _ hp) res h
          · rename_i tv hg'
            cases hmm : dm tv sv' with
            | error e => rw [hmm] at h; simp [bind, Except.bind] at h
            | ok m =>
                rw [hmm] at h
                simp only [bind, Except.bind] at h
                exact ih _ _ _ hm ho ha (getKey_isSome_setKey _ _ _ _ hp) res h
        · rw [if_neg ho'] at h
          by_cases ha' : isArrayV sv' = true
          · rw [if_pos ha'] at h
            exact ih _ _ _ hm ho ha (getKey_isSome_setKey _ _ _ _ hp) res h
          · rw [if_neg ha'] at h
            by_cases hp' : (getKey out k').isSome = true
            · rw [hp'] at h
              simp at h
            · rw [Bool.not_eq_true] at hp'
              rw [hp'] at h
              simp only [Bool.false_eq_true, if_false] at h
              exact ih _ _ _ hm ho ha (getKey_isSome_setKey _ _ _ _ hp) res h

/-- The output's key order: the accumulated output's keys, in their
original order, followed by the new keys introduced by the source
entries, in source order. -/
theorem mergeEntriesWith_keysOf (dm : Value → Value → Except String Value)
    (tEs : List (String × Value)) :
    ∀ (l out res : List (String × Value)),
      (keysOf l).Nodup →
      mergeEntriesWith dm tEs l out = .ok res →
      keysOf res = keysOf out ++ (keysOf l).filter (fun k => decide (k ∉ keysOf out)) := by
  intro l
  induction l with
  | nil =>
      intro out res _ h
      simp only [mergeEntriesWith] at h
      cases h
      simp [keysOf]
  | cons p rest ih =>
      intro out res hnd h
      obtain ⟨k, sv⟩ := p
      rw [keysOf_cons] at hnd ⊢
      have hnd' := List.nodup_cons.mp hnd
      have step : ∀ (X : Value), mergeEntriesWith dm tEs rest (setKey out k X) = .ok res →
          keysOf res = keysOf out ++
            List.filter (fun k' => decide (k' ∉ keysOf out)) (k :: keysOf rest) := by
        intro X hstep
        by_cases hmem : k ∈ keysOf out
        · have e1 : keysOf (setKey out k X) = keysOf out := keysOf_setKey_mem _ _ _ hmem
          have e2 := ih (setKey out k X) res hnd'.2 hstep
          rw [e1] at e2
          rw [e2]
          congr 1
          rw [List.filter_cons]
          rw [if_neg (by simp [hmem])]
        · have e1 : keysOf (setKey out k X) = keysOf out ++ [k] :=
            keysOf_setKey_not_mem _ _ _ hmem
          have e2 := ih (setKey out k X) res hnd'.2 hstep
          rw [e1] at e2
          rw [e2]
          rw [List.filter_cons]
          rw [if_pos (by simp [hmem])]
          rw [List.append_assoc]
          congr 1
          rw [List.singleton_append]
          congr 1
          apply List.filter_congr
          intro k' hk'
          have hne : k' ≠ k := by
            intro hh
            subst hh
            exact hnd'.1 hk'
          simp [hne, hmem]
      simp only [mergeEntriesWith] at h
      by_cases ho : isObject sv = true
      · rw [if_pos ho] at h
        split at h
        · exact step _ h
        · rename_i tv hg'
          cases hmm : dm tv sv with
          | error e => rw [hmm] at h; simp [bind, Except.bind] at h
          | ok m =>
              rw [hmm] at h
              simp only [bind, Except.bind] at h
              exact step _ h
      · rw [if_neg ho] at h
        by_cases ha : isArrayV sv = true
        · rw [if_pos ha] at h
          exact step _ h
        · rw [if_neg ha] at h
          by_cases hp : (getKey out k).isSome = true
          · rw [hp] at h
            simp at h
          · rw [Bool.not_eq_true] at hp
            rw [hp] at h
            simp only [Bool.false_eq_true, if_false] at h
            exact step _ h

theorem spreadEntries_obj (es : List (String × Value)) :
    spreadEntries (.obj es) = es := rfl

/-- Every error produced by the forEach loop is a merge-conflict message,
provided the recursive merge only produces such errors on the entries. -/
theorem mergeEntriesWith_error_shape (dm : Value → Value → Except String Value)
    (tEs : List (String × Value)) :
    ∀ (l out : List (String × Value)) (e : String),
      (∀ k sv tv e', (k, sv) ∈ l → dm tv sv = .error e' →
        ∃ k'', e' = mergeErrorMessage k'') →
      mergeEntriesWith dm tEs l out = .error e →
      ∃ k', e = mergeErrorMessage k' := by
  intro l
  induction l with
  | nil =>
      intro out e _ h
      simp [mergeEntriesWith] at h
  | cons p rest ih =>
      intro out e hdm h
      obtain ⟨k, sv⟩ := p
      have hdm' : ∀ k' sv' tv e', (k', sv') ∈ rest → dm tv sv' = .error e' →
          ∃ k'', e' = mergeErrorMessage k'' :=
        fun k' sv' tv e' hm => hdm k' sv' tv e' (List.mem_cons_of_mem _ hm)
      simp only [mergeEntriesWith] at h
      by_cases ho : isObject sv = true
      · rw [if_pos ho] at h
        split at h
        · exact ih _ _ hdm' h
        · rename_i tv hg
          cases hmm : dm tv sv with
          | error e' =>
              rw [hmm] at h
              simp only [bind, Except.bind] at h
              cases h
              exact hdm k sv tv e (List.mem_cons_self _ _) hmm
          | ok m =>
              rw [hmm] at h
              simp only [bind, Except.bind] at h
              exact ih _ _ hdm' h
      · rw [if_neg ho] at h
        by_cases ha : isArrayV sv = true
        · rw [if_pos ha] at h
          exact ih _ _ hdm' h
        · rw [if_neg ha] at h
          by_cases hp : (getKey out k).isSome = true
          · rw [hp] at h
            simp only [if_true, Except.error.injEq] at h
            exact ⟨k, h.symm⟩
          · rw [Bool.not_eq_true] at hp
            rw [hp] at h
            simp only [Bool.false_eq_true, if_false] at h
            exact ih _ _ hdm' h

/-- Every error `deepMerge` ever produces is a merge-conflict message:
the conflict throw is the only throw site in the function. -/
theorem deepMerge_error_shape (t s : Value) (e : String)
    (h : deepMerge t s = .error e) : ∃ k, e = mergeErrorMessage k := by
  match t, s with
  | .obj tEs, .obj sEs =>
      rw [deepMerge_obj_obj] at h
      cases hm : mergeEntriesWith deepMerge tEs sEs (spreadEntries (Value.obj tEs)) with
      | ok res => rw [hm] at h; simp [Except.map] at h
      | error e' =>
          rw [hm] at h
          simp only [Except.map, Except.error.injEq] at h
          rw [← h]
          exact mergeEntriesWith_error_shape deepMerge tEs sEs _ e'
            (fun k sv tv e'' hmem herr => deepMerge_error_shape tv sv e'' herr) hm
  | .obj tEs, .null => rw [deepMerge_not_both] at h; simp at h; simp [isObject]
  | .obj tEs, .bool b => rw [deepMerge_not_both] at h; simp at h; simp [isObject]
  | .obj tEs, .num n => rw [deepMerge_not_both] at h; simp at h; simp [isObject]
  | .obj tEs, .str s' => rw [deepMerge_not_both] at h; simp at h; simp [isObject]
  | .obj tEs, .arr xs => rw [deepMerge_not_both] at h; simp at h; simp [isObject]
  | .null, s => rw [deepMerge_not_both] at h; simp at h; simp [isObject]
  | .bool b, s => rw [deepMerge_not_both] at h; simp at h; simp [isObject]
  | .num n, s => rw [deepMerge_not_both] at h; simp at h; simp [isObject]
  | .str s', s => rw [deepMerge_not_both] at h; simp at h; simp [isObject]
  | .arr xs, s => rw [deepMerge_not_both] at h; simp at h; simp [isObject]
termination_by sizeOf s
decreasing_by
  simp only [Value.obj.sizeOf_spec]
  have h1 := List.sizeOf_lt_of_mem hmem
  simp only [Prod.mk.sizeOf_spec] at h1
  omega

theorem deepMerge_obj_ok_inv (tEs sEs out : List (String × Value))
    (h : deepMerge (.obj tEs) (.obj sEs) = .ok (.obj out)) :
    mergeEntriesWith deepMerge tEs sEs tEs = .ok out := by
  rw [deepMerge_obj_obj, spreadEntries_obj] at h
  cases hm : mergeEntriesWith deepMerge tEs sEs tEs with
  | error e => rw [hm] at h; simp [Except.map] at h
  | ok res =>
      rw [hm] at h
      simp only [Except.map, Except.ok.injEq, Value.obj.injEq] at h
      rw [h]

/-- C2: for object-shaped `target` and `source`, `deepMerge` yields the
union of their entries when the key sets are disjoint; a key holding
arrays in both yields the concatenation with the target's elements first;
a scalar source entry whose key already exists in the target makes the
merge fail with the merge-conflict error; and the result's keys are the
target's keys first in their original order, then the new keys introduced
by the source in source order. -/
theorem claim_C2 :
    (∀ tEs sEs : List (String × Value), (keysOf sEs).Nodup →
       (∀ k, k ∈ keysOf sEs → k ∉ keysOf tEs) →
       deepMerge (.obj tEs) (.obj sEs) = .ok (.obj (tEs ++ sEs)))
  ∧ (∀ (tEs sEs out : List (String × Value)) (k : String) (xs ys : List Value),
       (keysOf sEs).Nodup →
       getKey tEs k = some (.arr xs) → (k, Value.arr ys) ∈ sEs →
       deepMerge (.obj tEs) (.obj sEs) = .ok (.obj out) →
       getKey out k = some (.arr (xs ++ ys)))
  ∧ (∀ (tEs sEs : List (String × Value)) (k : String) (sv : Value),
       (k, sv) ∈ sEs →
       isObject sv = false → isArrayV sv = false → k ∈ keysOf tEs →
       ∃ k', deepMerge (.obj tEs) (.obj sEs) = .error (mergeErrorMessage k'))
  ∧ (∀ (tEs sEs out : List (String × Value)), (keysOf sEs).Nodup →
       deepMerge (.obj tEs) (.obj sEs) = .ok (.obj out) →
       keysOf out = keysOf tEs ++ (keysOf sEs).filter (fun k => decide (k ∉ keysOf tEs))) := by
  refine ⟨?_, ?_, ?_, ?_⟩
  · intro tEs sEs hnd hdisj
    rw [deepMerge_obj_obj, spreadEntries_obj]
    rw [mergeEntriesWith_disjoint deepMerge tEs sEs tEs
      (fun k hk => (getKey_eq_none_iff tEs k).mpr (hdisj k hk))
      hdisj hnd]
    rfl
  · intro tEs sEs out k xs ys hnd hg hm hok
    exact mergeEntriesWith_arr_concat deepMerge tEs sEs tEs out k xs ys hnd hm hg
      (deepMerge_obj_ok_inv tEs sEs out hok)
  · intro tEs sEs k sv hm ho ha hk
    cases hres : deepMerge (.obj tEs) (.obj sEs) with
    | error e =>
        obtain ⟨k', hk'⟩ := deepMerge_error_shape _ _ e hres
        exact ⟨k', by rw [hk']⟩
    | ok v =>
        exfalso
        rw [deepMerge_obj_obj, spreadEntries_obj] at hres
        cases hmm : mergeEntriesWith deepMerge tEs sEs tEs with
        | error e => rw [hmm] at hres; simp [Except.map] at hres
        | ok res =>
            exact mergeEntriesWith_scalar_conflict deepMerge tEs sEs tEs k sv hm ho ha
              ((getKey_isSome_iff tEs k).mpr hk) res hmm
  · intro tEs sEs out hnd hok
    exact mergeEntriesWith_keysOf deepMerge tEs sEs tEs out hnd
      (deepMerge_obj_ok_inv tEs sEs out hok)

/-- Witness for C2 at concrete inputs: `{a: 1}` merged with `{b: 2}` is
`{a: 1, b: 2}`, and `{a: 1}` merged with `{a: 2}` fails. -/
theorem claim_C2_witness :
    deepMerge (.obj [("a", .num (.finite 1))]) (.obj [("b", .num (.finite 2))])
      = .ok (.obj [("a", .num (.finite 1)), ("b", .num (.finite 2))])
  ∧ (deepMerge (.obj [("a", .num (.finite 1))]) (.obj [("a", .num (.finite 2))])).isOk
      = false := by
  constructor
  · exact claim_C2.1 [("a", .num (.finite 1))] [("b", .num (.finite 2))]
      (by simp [keysOf])
      (by intro k hk; simp [keysOf] at hk ⊢; simp [hk])
  · obtain ⟨k', hk'⟩ := claim_C2.2.2.1 [("a", .num (.finite 1))] [("a", .num (.finite 2))]
      "a" (.num (.finite 2)) (List.mem_singleton.mpr rfl) rfl rfl (by simp [keysOf])
    rw [hk']
    rfl

/-- C6 counterexample: with `target = []` (an array, so the `isObject`
guard fails) and `source = {b: 2}`, the code returns the spread copy of
the target (the empty object) and ignores the source entirely, whereas
the claim predicts the source's keys layered over the copy, `{b: 2}`. -/
theorem claim_C6_counterexample :
    deepMerge (.arr []) (.obj [("b", .num (.finite 2))]) = .ok (.obj []) ∧
      Value.obj ([] : List (String × Value)) ≠ .obj [("b", .num (.finite 2))] := by
  constructor
  · exact deepMerge_not_both (.arr []) (.obj [("b", .num (.finite 2))])
      (fun hc => by simp [isObject] at hc)
  · intro h
    rw [Value.obj.injEq] at h
    exact List.noConfusion h

/-- C6 (amended): when `target` and `source` are not both non-array,
non-null object-shaped values, `deepMerge` returns an object holding a
shallow (spread) copy of the target's own enumerable properties; the
source is ignored entirely. -/
theorem claim_C6 (t s : Value)
    (h : ¬(isObject t = true ∧ isObject s = true)) :
    deepMerge t s = .ok (.obj (spreadEntries t)) :=
  deepMerge_not_both t s h

/-- Witness for C6: merging the number `5` with `{b: 2}` yields the empty
object (the spread of a number has no entries). -/
theorem claim_C6_witness :
    deepMerge (.num (.finite 5)) (.obj [("b", .num (.finite 2))]) = .ok (.obj []) :=
  claim_C6 (.num (.finite 5)) (.obj [("b", .num (.finite 2))])
    (by intro hc; simp [isObject] at hc)

/-! ## The renderer -/

/-- Characters trimmed by JS string-to-number conversion (ASCII whitespace,
line terminators, NBSP; other Unicode space separators are outside the
model). -/
def isJsWhitespace (c : Char) : Bool :=
  c == ' ' || c == '\t' || c == '\n' || c == '\r' ||
    c == Char.ofNat 11 || c == Char.ofNat 12 || c == Char.ofNat 0xA0

/-- Trim leading and trailing JS whitespace from a character list. -/
def trimJsWs (cs : List Char) : List Char :=
  ((cs.dropWhile isJsWhitespace).reverse.dropWhile isJsWhitespace).reverse

/-- Leading sign: `-1` for a minus, `1` otherwise, with the rest. -/
def splitSign : List Char → (Int × List Char)
  | '+' :: rest => (1, rest)
  | '-' :: rest => (-1, rest)
  | cs => (1, cs)

/-- The numeric value of a digit character in the given radix, if valid. -/
def digitValue (radix : Nat) (c : Char) : Option Nat :=
  let v :=
    if '0' ≤ c && c ≤ '9' then some (c.toNat - 48)
    else if 'a' ≤ c && c ≤ 'z' then some (c.toNat - 97 + 10)
    else if 'A' ≤ c && c ≤ 'Z' then some (c.toNat - 65 + 10)
    else none
  match v with
  | some d => if d < radix then some d else none
  | none => none

/-- The value of a non-empty digit string in the given radix. -/
def digitsValue (radix : Nat) (cs : List Char) : Option Nat :=
  if cs = [] then none
  else cs.foldlM (fun a c => (digitValue radix c).map (fun d => a * radix + d)) 0

/-- Split a character list at the first occurrence of one of the marker
characters; fails when a marker occurs more than once. -/
def splitOnce (isMark : Char → Bool) (cs : List Char) : Option (List Char × Option (List Char)) :=
  match cs.span (fun c => !(isMark c)) with
  | (pre, []) => some (pre, none)
  | (pre, _ :: tail) =>
      if tail.any isMark then none else some (pre, some tail)

/-- The exact rational `sign * mval * 10 ^ (e - fracLen)`: the value of a
decimal numeral with digit string value `mval`, `fracLen` digits after the
point and decimal exponent `e`.  The non-negative-exponent path uses only
integer arithmetic (so it reduces inside the kernel); the fractional path
divides by the power of ten. -/
def decimalValue (sign : Int) (mval : Nat) (fracLen : Nat) (e : Int) : Rat :=
  let k : Int := e - fracLen
  if 0 ≤ k then ((sign * mval * 10 ^ k.toNat : Int) : Rat)
  else ((sign * mval : Int) : Rat) / ((10 : Rat) ^ (-k).toNat)

/-- The exact rational denoted by a signed JS decimal numeral body:
`digits [. digits]? [(e|E) [+-]? digits]?`, with at least one mantissa
digit.  Exact value; no binary64 rounding. -/
def parseDecimalBody (sign : Int) (cs : List Char) : Option JSNum :=
  match splitOnce (fun c => c == 'e' || c == 'E') cs with
  | none => none
  | some (mant, expPart) =>
      match splitOnce (fun c => c == '.') mant with
      | none => none
      | some (ip, fpOpt) =>
          let fp := fpOpt.getD []
          if ip = [] && fp = [] then none
          else
            match digitsValue 10 (ip ++ fp) with
            | none => none
            | some mval =>
                match expPart with
                | none => some (.finite (decimalValue sign mval fp.length 0))
                | some ecs =>
                    let (es, eds) := splitSign ecs
                    match digitsValue 10 eds with
                    | none => none
                    | some ev =>
                        some (.finite (decimalValue sign mval fp.length (es * ev)))

/-- A signed decimal numeral or a signed `Infinity`. -/
def parseDecimalOrInfinity (cs : List Char) : Option JSNum :=
  let (sign, body) := splitSign cs
  if body = ['I', 'n', 'f', 'i', 'n', 'i', 't', 'y'] then
    some (if sign = 1 then .posInf else .negInf)
  else
    parseDecimalBody sign body

/-- JS `Number(s)` on a string, as used by the renderer's scalar-leaf
coercion: `none` models a `NaN` result (`isNaN(Number(s))` true), `some n`
the numeric value.  Handles whitespace trimming, the empty string (`0`),
signed decimal numerals with fraction and exponent, signed `Infinity`,
and the unsigned `0x`/`0o`/`0b` radix prefixes.  Values are exact
rationals: binary64 rounding and overflow to infinity are outside the
model. -/
def jsStrToNum (s : String) : Option JSNum :=
  let cs := trimJsWs s.toList
  if cs = [] then some (.finite 0)
  else
    match cs with
    | '0' :: c :: rest =>
        if c == 'x' || c == 'X' then (digitsValue 16 rest).map (fun n => .finite (n : Rat))
        else if c == 'o' || c == 'O' then (digitsValue 8 rest).map (fun n => .finite (n : Rat))
        else if c == 'b' || c == 'B' then (digitsValue 2 rest).map (fun n => .finite (n : Rat))
        else parseDecimalOrInfinity cs
    | _ => parseDecimalOrInfinity cs

/-- The tag (`type`) of a VNode: a string key, a function component
(identified by name, with its body looked up in an `Env`), or one of the
two reserved symbols `FragmentSymbol` / `ListSymbol` from the JSX
runtime. -/
inductive Tag where
  | str (s : String)
  | comp (name : String)
  | fragment
  | list
deriving DecidableEq, Repr

/-- A virtual node (`VNode['children'][0]` in the source): a scalar leaf
(null/undefined collapse to `leafNull`), or an element with a tag, props
and children. -/
inductive JNode where
  | leafNull
  | leafStr (s : String)
  | leafNum (n : JSNum)
  | leafBool (b : Bool)
  | elem (tag : Tag) (props : List (String × JNode)) (children : List JNode)
deriving Repr

/-- A thrown JavaScript value, as distinguished by the renderer's catch
block: a plain `Error` carrying a message, an `OriginError` carrying a
message and the component call stack, or any thrown non-`Error` value.
`fuelOut` is a model artifact marking recursion-budget exhaustion (a
JavaScript run that has not returned yet); it is never produced at the
recursion depths the theorems use. -/
inductive Thrown where
  | err (msg : String)
  | origin (msg : String) (callStack : List String)
  | nonError
  | fuelOut
deriving DecidableEq, Repr

/-- The environment of function components: maps a component name and the
invocation props `{...vnode.props, children}` (split here into the props
map and the children list) to the returned node, or to a thrown value. -/
def Env : Type := String → List (String × JNode) → List JNode → Except Thrown JNode

/-- `OriginError.prototype.toString` from the source:
the call-stack entries joined by a separator, then the message on an
indented line. -/
def originErrorToString (msg : String) (callStack : List String) : String :=
  String.intercalate " > " callStack ++ "\n  " ++ msg

/-- The catch block of `renderToObject` (source lines 199-208): an
`OriginError` is re-thrown unchanged, any other `Error` is wrapped into an
`OriginError` carrying the accumulated call stack, and a thrown non-Error
value is replaced by a plain generic `Error`. -/
def wrapCatch (callStack : List String) : Except Thrown Value → Except Thrown Value
  | .ok v => .ok v
  | .error (.origin m st) => .error (.origin m st)
  | .error (.err m) => .error (.origin m callStack)
  | .error .nonError => .error (.err "Unknown error")
  | .error .fuelOut => .error .fuelOut

/-- A printer for the modelled numbers, standing in for JS
`Number.prototype.toString`.  It is pushed on the call stack only in
scalar-leaf frames, which can never fail after the push, so no rendered
result or error ever observes its output. -/
def numToString : JSNum → String
  | .finite q => toString q
  | .posInf => "Infinity"
  | .negInf => "-Infinity"

/-- The call-stack updates of `renderToObject` (source lines 117-157): a
scalar leaf pushes its `toString()`, a function component pushes its
name, a string tag pushes itself, the two reserved symbols push nothing
(their pushes are commented out in the source), and a null node returns
before any push.  The source's `default: callStack.push('unknown')` arm
is unreachable in the model, where every tag is a function, a string or a
symbol. -/
def pushCallStack (callStack : List String) : JNode → List String
  | .leafNull => callStack
  | .leafStr s => callStack ++ [s]
  | .leafNum n => callStack ++ [numToString n]
  | .leafBool b => callStack ++ [if b then "true" else "false"]
  | .elem tag _ _ =>
      match tag with
      | .comp name => callStack ++ [name]
      | .str t => callStack ++ [t]
      | .fragment => callStack
      | .list => callStack

/-- Lift a `deepMerge` failure into a thrown `Error` (the JS `throw new
Error(...)` inside `deepMerge`). -/
def liftMerge : Except String Value → Except Thrown Value
  | .ok v => .ok v
  | .error m => .error (.err m)

/-- `renderToObject` from the source, at explicit recursion depth `fuel`
(every recursive call descends one step; at depth `0` the model returns
the `fuelOut` marker).  The body mirrors the source case by case:

* null/undefined nodes render to `null`;
* scalar leaves: an empty string is returned unchanged, a value whose
  `Number(...)` conversion is not `NaN` becomes that number (so string
  numerals convert, numbers pass through, and booleans become `1`/`0`),
  the strings `"true"`/`"false"` become booleans, anything else passes
  through;
* a function component is invoked with `{...props, children}` and its
  (awaited) result is rendered recursively;
* a string tag with exactly one child renders to `{tag: child}`;
* the `ListSymbol` element renders its children (in order) into an array;
* the `FragmentSymbol` element deep-merges its children's results
  left-to-right starting from `{}`;
* a string tag with any other number of children wraps that same merge
  as `{tag: merged}`.

Children are evaluated by `Promise.all`, which settles results in
declaration order; the model evaluates them sequentially in that order,
so a rejection surfaces from the leftmost failing child.  The whole body
runs inside the try/catch modelled by `wrapCatch`, using the call stack
as already pushed for this frame. -/
def renderToObject (env : Env) : Nat → JNode → List String → Except Thrown Value
  | 0, _, _ => .error .fuelOut
  | fuel + 1, vnode, callStack =>
      let cs := pushCallStack callStack vnode
      wrapCatch cs
        (match vnode with
        | .leafNull => .ok .null
        | .leafStr s =>
            if s = "" then .ok (.str "")
            else
              match jsStrToNum s with
              | some n => .ok (.num n)
              | none =>
                  if s = "true" then .ok (.bool true)
                  else if s = "false" then .ok (.bool false)
                  else .ok (.str s)
        | .leafNum n => .ok (.num n)
        | .leafBool b => .ok (.num (.finite (if b then 1 else 0)))
        | .elem tag props children =>
            match tag with
            | .comp name => do
                let result ← env name props children
                renderToObject env fuel result cs
            | .str t =>
                match children with
                | [c] => do
                    let v ← renderToObject env fuel c cs
                    .ok (.obj [(t, v)])
                | _ => do
                    let vs ← children.mapM (fun c => renderToObject env fuel c cs)
                    let m ← liftMerge (vs.foldlM (fun acc v => deepMerge acc v) (.obj []))
                    .ok (.obj [(t, m)])
            | .list => do
                let vs ← children.mapM (fun c => renderToObject env fuel c cs)
                .ok (.arr vs)
            | .fragment => do
                let vs ← children.mapM (fun c => renderToObject env fuel c cs)
                liftMerge (vs.foldlM (fun acc v => deepMerge acc v) (.obj [])))

/-- An environment with no usable components (every invocation throws a
non-Error value); leaf and string-tag rendering never consult it. -/
def envEmpty : Env := fun _ _ _ => .error .nonError

/-- C1 counterexample: the boolean leaf `true` does not pass through
unchanged — `Number(true)` is `1` and `isNaN(1)` is false, so the
renderer returns the number `1`. -/
theorem claim_C1_counterexample :
    renderToObject envEmpty 1 (.leafBool true) [] = .ok (.num (.finite 1)) ∧
      Value.num (.finite 1) ≠ Value.bool true := by
  constructor
  · rfl
  · intro h
    exact Value.noConfusion h

/-- C1 (amended): for scalar leaves, a non-empty string whose `Number()`
conversion succeeds becomes that number; `"true"`/`"false"` become the
booleans; any other string — the empty string included — passes through
unchanged; a number leaf passes through unchanged; but a boolean leaf is
coerced by the same numeric conversion to `1` (for `true`) or `0` (for
`false`) rather than passing through. -/
theorem claim_C1 :
    (∀ (env : Env) (fuel : Nat) (cs : List String) (s : String) (n : JSNum),
      s ≠ "" → jsStrToNum s = some n →
      renderToObject env (fuel + 1) (.leafStr s) cs = .ok (.num n))
  ∧ (∀ (env : Env) (fuel : Nat) (cs : List String),
      renderToObject env (fuel + 1) (.leafStr "true") cs = .ok (.bool true)
      ∧ renderToObject env (fuel + 1) (.leafStr "false") cs = .ok (.bool false))
  ∧ (∀ (env : Env) (fuel : Nat) (cs : List String) (s : String),
      jsStrToNum s = none → s ≠ "true" → s ≠ "false" →
      renderToObject env (fuel + 1) (.leafStr s) cs = .ok (.str s))
  ∧ (∀ (env : Env) (fuel : Nat) (cs : List String),
      renderToObject env (fuel + 1) (.leafStr "") cs = .ok (.str ""))
  ∧ (∀ (env : Env) (fuel : Nat) (cs : List String) (n : JSNum),
      renderToObject env (fuel + 1) (.leafNum n) cs = .ok (.num n))
  ∧ (∀ (env : Env) (fuel : Nat) (cs : List String) (b : Bool),
      renderToObject env (fuel + 1) (.leafBool b) cs
        = .ok (.num (.finite (if b then 1 else 0)))) := by
  refine ⟨?_, ?_, ?_, ?_, ?_, ?_⟩
  · intro env fuel cs s n hne hsome
    simp [renderToObject, wrapCatch, hne, hsome]
  · intro env fuel cs
    constructor <;> rfl
  · intro env fuel cs s hnone ht hf
    have hne : s ≠ "" := by
      intro hh
      rw [hh] at hnone
      exact Option.noConfusion hnone
    simp [renderToObject, wrapCatch, hne, hnone, ht, hf]
  · intro env fuel cs
    rfl
  · intro env fuel cs n
    rfl
  · intro env fuel cs b
    rfl

/-- Witness for C1 at concrete leaves: `"42"` becomes the number `42` and
`"hello"` passes through unchanged. -/
theorem claim_C1_witness :
    renderToObject envEmpty 1 (.leafStr "42") [] = .ok (.num (.finite 42))
  ∧ renderToObject envEmpty 1 (.leafStr "hello") [] = .ok (.str "hello") := by
  constructor
  · exact claim_C1.1 envEmpty 0 [] "42" (.finite 42) (by decide) (by decide)
  · exact claim_C1.2.2.1 envEmpty 0 [] "hello" (by decide) (by decide) (by decide)

/-- C5: a string-tagged element with exactly one child renders to
`{tag: render(child)}` — never wrapped in an array or merged — while with
zero or more than one children it renders to `{tag: m}`, `m` being the
deep merge of the children's results, folded left-to-right in declaration
order starting from the empty object. -/
theorem claim_C5 :
    (∀ (env : Env) (fuel : Nat) (t : String) (props : List (String × JNode))
        (c : JNode) (cs : List String) (v : Value),
      renderToObject env fuel c (cs ++ [t]) = .ok v →
      renderToObject env (fuel + 1) (.elem (.str t) props [c]) cs = .ok (.obj [(t, v)]))
  ∧ (∀ (env : Env) (fuel : Nat) (t : String) (props : List (String × JNode))
        (children : List JNode) (cs : List String) (vs : List Value) (m : Value),
      children.length ≠ 1 →
      children.mapM (fun c => renderToObject env fuel c (cs ++ [t])) = .ok vs →
      vs.foldlM (fun acc v => deepMerge acc v) (Value.obj []) = .ok m →
      renderToObject env (fuel + 1) (.elem (.str t) props children) cs
        = .ok (.obj [(t, m)])) := by
  constructor
  · intro env fuel t props c cs v hc
    simp only [renderToObject, pushCallStack]
    rw [hc]
    rfl
  · intro env fuel t props children cs vs m hlen hmapM hfold
    simp only [renderToObject, pushCallStack]
    match children, hlen with
    | [], _ =>
        simp only [List.mapM_nil, pure, Except.pure] at hmapM
        cases hmapM
        simp only [List.mapM_nil, pure, Except.pure, bind, Except.bind]
        rw [hfold]
        rfl
    | c1 :: c2 :: rest, _ =>
        rw [hmapM]
        simp only [bind, Except.bind]
        rw [hfold]
        rfl

/-- Witness for C5: `<a>5</a>` renders to `{a: 5}` (single child), and a
two-child element `<b><x>1</x><y>2</y></b>` renders to `{b: {x: 1, y: 2}}`
via the deep merge of its children. -/
theorem claim_C5_witness :
    renderToObject envEmpty 2 (.elem (.str "a") [] [.leafStr "5"]) []
      = .ok (.obj [("a", .num (.finite 5))])
  ∧ renderToObject envEmpty 3
      (.elem (.str "b") []
        [.elem (.str "x") [] [.leafNum (.finite 1)],
         .elem (.str "y") [] [.leafNum (.finite 2)]]) []
      = .ok (.obj [("b", .obj [("x", .num (.finite 1)), ("y", .num (.finite 2))])]) := by
  constructor
  · exact claim_C5.1 envEmpty 1 "a" [] (.leafStr "5") [] (.num (.finite 5)) (by rfl)
  · refine claim_C5.2 envEmpty 2 "b" []
      [.elem (.str "x") [] [.leafNum (.finite 1)],
       .elem (.str "y") [] [.leafNum (.finite 2)]] []
      [.obj [("x", .num (.finite 1))], .obj [("y", .num (.finite 2))]]
      (.obj [("x", .num (.finite 1)), ("y", .num (.finite 2))])
      (by decide) (by rfl) ?_
    simp [deepMerge_obj_obj, mergeEntriesWith, spreadEntries, getKey, setKey,
      isObject, isArrayV, bind, Except.bind, Except.map, List.find?, pure, Except.pure]

/-- C8: during rendering, an already-contextualized `OriginError`
propagates upward unchanged; a plain thrown `Error` is re-raised as an
`OriginError` carrying the accumulated ancestor path, whose user-visible
rendering is the path identifiers joined by `" > "` followed by the
indented message; and a thrown non-Error value becomes the generic
`Error("Unknown error")`. -/
theorem claim_C8 :
    (∀ (env : Env) (fuel : Nat) (t : String) (props : List (String × JNode))
        (n : JNode) (cs : List String) (m : String) (st : List String),
      renderToObject env fuel n (cs ++ [t]) = .error (.origin m st) →
      renderToObject env (fuel + 1) (.elem (.str t) props [n]) cs = .error (.origin m st))
  ∧ (∀ (env : Env) (fuel : Nat) (name : String) (props : List (String × JNode))
        (children : List JNode) (cs : List String) (msg : String),
      env name props children = .error (.err msg) →
      renderToObject env (fuel + 1) (.elem (.comp name) props children) cs
        = .error (.origin msg (cs ++ [name]))
      ∧ originErrorToString msg (cs ++ [name])
        = String.intercalate " > " (cs ++ [name]) ++ "\n  " ++ msg)
  ∧ (∀ (env : Env) (fuel : Nat) (name : String) (props : List (String × JNode))
        (children : List JNode) (cs : List String),
      env name props children = .error .nonError →
      renderToObject env (fuel + 1) (.elem (.comp name) props children) cs
        = .error (.err "Unknown error")) := by
  refine ⟨?_, ?_, ?_⟩
  · intro env fuel t props n cs m st hc
    simp only [renderToObject, pushCallStack]
    rw [hc]
    rfl
  · intro env fuel name props children cs msg henv
    constructor
    · simp only [renderToObject, pushCallStack]
      rw [henv]
      rfl
    · rfl
  · intro env fuel name props children cs henv
    simp only [renderToObject, pushCallStack]
    rw [henv]
    rfl

/-- An environment whose every component invocation throws the plain
`Error("boom")`. -/
def envBoom : Env := fun _ _ _ => .error (.err "boom")

/-- Witness for C8: with a component `C` that throws `Error("boom")`,
rendering `<a><C/></a>` yields the `OriginError` raised at `C`'s frame
carrying the path `["a", "C"]`, unchanged by the enclosing element; and a
component throwing a non-Error value yields the generic error. -/
theorem claim_C8_witness :
    renderToObject envBoom 2 (.elem (.str "a") [] [.elem (.comp "C") [] []]) []
      = .error (.origin "boom" ["a", "C"])
  ∧ renderToObject envEmpty 1 (.elem (.comp "C") [] []) []
      = .error (.err "Unknown error") := by
  constructor
  · exact claim_C8.1 envBoom 1 "a" [] (.elem (.comp "C") [] []) [] "boom" ["a", "C"]
      (claim_C8.2.1 envBoom 0 "C" [] [] ["a"] "boom" rfl).1
  · exact claim_C8.2.2 envEmpty 0 "C" [] [] [] rfl

/-! ## The dependency resolver -/

/-- The union type `VNode | DependantNodeTree` handled by the resolver.
VNodes are opaque to the resolver and are represented by their identity
(JS reference equality on node objects becomes equality of the numeric
id); a `DependantNodeTree` pairs the dependency list with the wrapped
node.  Structural equality on this type stands for JS reference
equality; two structurally equal wrappers are conflated, which leaves
every observable output of the resolver unchanged (a revisited wrapper
contributes nothing to the output order). -/
inductive DepNode where
  | vnode (id : Nat)
  | tree (deps : List DepNode) (node : DepNode)
deriving Repr

/-- Is the value a `DependantNodeTree` (the `instanceof` test)? -/
def DepNode.isTree : DepNode → Bool
  | .tree _ _ => true
  | .vnode _ => false

/-- `DependantNodeTree.getVNode` from the source: follow the `node` chain
to the underlying VNode (here, its identity). -/
def DepNode.getVNode : DepNode → Nat
  | .vnode i => i
  | .tree _ n => DepNode.getVNode n

theorem sizeOf_mem_lt {d : DepNode} {l : List DepNode} (h : d ∈ l) :
    sizeOf d < sizeOf l := List.sizeOf_lt_of_mem h

/-- Boolean structural equality on `DepNode` (hand-rolled: the nested
inductive defeats `deriving DecidableEq`). -/
def DepNode.beq : DepNode → DepNode → Bool
  | .vnode i, .vnode j => i == j
  | .tree ds n, .tree es m =>
      (ds.length == es.length
        && (ds.zip es).attach.all (fun p => DepNode.beq p.1.1 p.1.2))
        && DepNode.beq n m
  | .vnode _, .tree _ _ => false
  | .tree _ _, .vnode _ => false
termination_by a _ => sizeOf a
decreasing_by
  · obtain ⟨⟨x, y⟩, hp⟩ := p
    have hm := List.of_mem_zip hp
    have h1 := sizeOf_mem_lt hm.1
    simp only [DepNode.tree.sizeOf_spec]
    omega
  · simp only [DepNode.tree.sizeOf_spec]
    omega

theorem mem_zip_self {α : Type} :
    ∀ (l : List α) (p : α × α), p ∈ l.zip l → p.1 = p.2 := by
  intro l
  induction l with
  | nil => intro p h; simp at h
  | cons x xs ih =>
      intro p h
      rw [List.zip_cons_cons] at h
      rcases List.mem_cons.mp h with h | h
      · rw [h]
      · exact ih p h

theorem list_eq_of_zip_eq {α : Type} :
    ∀ (xs ys : List α), xs.length = ys.length →
      (∀ p ∈ xs.zip ys, p.1 = p.2) → xs = ys := by
  intro xs
  induction xs with
  | nil =>
      intro ys hl _
      cases ys with
      | nil => rfl
      | cons y ys => simp at hl
  | cons x xs ih =>
      intro ys hl hp
      cases ys with
      | nil => simp at hl
      | cons y ys =>
          have hx : x = y := hp (x, y) (by simp [List.zip_cons_cons])
          have : xs = ys := by
            apply ih
            · simpa using hl
            · intro p hmem
              exact hp p (by simp [List.zip_cons_cons, hmem])
          rw [hx, this]

theorem depNode_beq_refl (a : DepNode) : DepNode.beq a a = true := by
  match a with
  | .vnode i => simp [DepNode.beq]
  | .tree ds n =>
      rw [DepNode.beq]
      rw [Bool.and_eq_true, Bool.and_eq_true]
      refine ⟨⟨by simp, ?_⟩, depNode_beq_refl n⟩
      rw [List.all_eq_true]
      intro p _
      have heq : p.1.1 = p.1.2 := mem_zip_self ds p.1 p.2
      rw [heq]
      exact depNode_beq_refl p.1.2
termination_by sizeOf a
decreasing_by
  · obtain ⟨⟨x, y⟩, hp⟩ := p
    have hm := List.of_mem_zip hp
    have h1 := sizeOf_mem_lt hm.2
    simp only [DepNode.tree.sizeOf_spec]
    omega
  · simp only [DepNode.tree.sizeOf_spec]
    omega

theorem depNode_beq_eq (a b : DepNode) (h : DepNode.beq a b = true) : a = b := by
  match a, b with
  | .vnode i, .vnode j =>
      rw [DepNode.beq] at h
      simp only [beq_iff_eq] at h
      rw [h]
  | .vnode i, .tree es m => rw [DepNode.beq] at h; exact Bool.noConfusion h
  | .tree ds n, .vnode j => rw [DepNode.beq] at h; exact Bool.noConfusion h
  | .tree ds n, .tree es m =>
      rw [DepNode.beq] at h
      rw [Bool.and_eq_true, Bool.and_eq_true] at h
      obtain ⟨⟨hlen, hall⟩, hnm⟩ := h
      have hn : n = m := depNode_beq_eq n m hnm
      have hds : ds = es := by
        apply list_eq_of_zip_eq ds es (by simpa using hlen)
        intro p hp
        rw [List.all_eq_true] at hall
        have := hall ⟨p, hp⟩ (List.mem_attach _ _)
        exact depNode_beq_eq p.1 p.2 this
      rw [hds, hn]
termination_by sizeOf a
decreasing_by
  · simp only [DepNode.tree.sizeOf_spec]
    omega
  · have hm := List.of_mem_zip hp
    have h1 := sizeOf_mem_lt hm.1
    simp only [DepNode.tree.sizeOf_spec]
    omega

instance : DecidableEq DepNode := fun a b =>
  decidable_of_iff (DepNode.beq a b = true)
    ⟨depNode_beq_eq a b, fun h => by rw [h]; exact depNode_beq_refl b⟩

/-- `depends` from the source: the construction-time one-hop circularity
check.  A dependency that is itself a wrapper whose underlying VNode is
identical to the node's underlying VNode raises
`CircularDependencyError`; otherwise a new wrapper is built.  (The
comparison `node instanceof DependantNodeTree ? node.getVNode() : node`
is `getVNode node` in both arms of the model, where VNodes are their
identities.) -/
def depends (deps : List DepNode) (node : DepNode) : Except String DepNode :=
  if deps.any (fun dep => dep.isTree && (dep.getVNode == node.getVNode)) then
    .error "Circular dependency detected"
  else
    .ok (.tree deps node)

/-- The state threaded through `unravelOrderOfDependencies`: the `order`
output array and the identity-keyed `visited` set (a list, with
membership as the `Set` test). -/
structure ResolveState where
  order : List DepNode
  visited : List DepNode
deriving Repr

theorem foldl_attach_val' {α β : Type} (l : List α) (g : β → α → β) (init : β) :
    l.attach.foldl (fun b p => g b p.1) init = l.foldl g init := by
  conv_rhs => rw [← List.attach_map_subtype_val l]
  rw [List.foldl_map]

/-- The recursive `dfs` of `unravelOrderOfDependencies` from the source:
an already-visited node is skipped; a `DependantNodeTree` is first marked
visited, then its dependencies are processed in order, then its own
`node`; a raw VNode is appended to the output and marked visited. -/
def dfs (s : ResolveState) (t : DepNode) : ResolveState :=
  if t ∈ s.visited then s
  else
    match t with
    | .tree deps node =>
        dfs (deps.attach.foldl (fun s' d => dfs s' d.1)
          ⟨s.order, DepNode.tree deps node :: s.visited⟩) node
    | .vnode i =>
        if DepNode.vnode i ∈ s.visited then s
        else ⟨s.order ++ [DepNode.vnode i], DepNode.vnode i :: s.visited⟩
termination_by sizeOf t
decreasing_by
  · have h1 := sizeOf_mem_lt d.2
    simp only [DepNode.tree.sizeOf_spec]
    omega
  · simp only [DepNode.tree.sizeOf_spec]
    omega

/-- Unfolding equation for `dfs`, with the dependency loop as a plain
fold of `dfs` over the dependency list. -/
theorem dfs_eq (s : ResolveState) (t : DepNode) :
    dfs s t =
      if t ∈ s.visited then s
      else
        match t with
        | .tree deps node => dfs (deps.foldl dfs ⟨s.order, t :: s.visited⟩) node
        | .vnode i =>
            if DepNode.vnode i ∈ s.visited then s
            else ⟨s.order ++ [DepNode.vnode i], DepNode.vnode i :: s.visited⟩ := by
  rw [dfs.eq_def]
  cases t with
  | vnode i => rfl
  | tree deps node =>
      by_cases h : DepNode.tree deps node ∈ s.visited
      · rw [if_pos h, if_pos h]
      · rw [if_neg h, if_neg h]
        exact congrArg (fun x => dfs x node)
          (foldl_attach_val' deps dfs ⟨s.order, DepNode.tree deps node :: s.visited⟩)

/-- `unravelOrderOfDependencies` from the source: run `dfs` from each
supplied tree, sharing one state, and return the output order. -/
def unravelOrderOfDependencies (trees : List DepNode) : List DepNode :=
  (trees.foldl dfs ⟨[], []⟩).order

/-- All VNode identities occurring anywhere in a declaration (in its
dependency lists and node chain). -/
def allIds : DepNode → List Nat
  | .vnode i => [i]
  | .tree ds n => (ds.attach.map (fun d => allIds d.1)).flatten ++ allIds n
termination_by t => sizeOf t
decreasing_by
  · have h1 := sizeOf_mem_lt d.2
    simp only [DepNode.tree.sizeOf_spec]
    omega
  · simp only [DepNode.tree.sizeOf_spec]
    omega

theorem allIds_vnode (i : Nat) : allIds (.vnode i) = [i] := by
  rw [allIds]

theorem allIds_tree (ds : List DepNode) (n : DepNode) :
    allIds (.tree ds n) = (ds.map allIds).flatten ++ allIds n := by
  rw [allIds]
  congr 1
  congr 1
  exact List.attach_map_coe ds allIds

theorem getVNode_mem_allIds (t : DepNode) : t.getVNode ∈ allIds t := by
  match t with
  | .vnode i => rw [allIds_vnode]; simp [DepNode.getVNode]
  | .tree ds n =>
      rw [allIds_tree]
      apply List.mem_append_right
      exact getVNode_mem_allIds n

theorem allIds_subset_of_mem_deps {d : DepNode} {ds : List DepNode} (n : DepNode)
    (h : d ∈ ds) : ∀ i, i ∈ allIds d → i ∈ allIds (.tree ds n) := by
  intro i hi
  rw [allIds_tree]
  apply List.mem_append_left
  rw [List.mem_flatten]
  exact ⟨allIds d, List.mem_map_of_mem allIds h, hi⟩

theorem allIds_node_subset (ds : List DepNode) (n : DepNode) :
    ∀ i, i ∈ allIds n → i ∈ allIds (.tree ds n) := by
  intro i hi
  rw [allIds_tree]
  exact List.mem_append_right _ hi

/-- The chain of wrappers from a declaration down to its underlying
VNode, following the `node` field. -/
def nodeChain : DepNode → List DepNode
  | .vnode i => [.vnode i]
  | .tree ds n => .tree ds n :: nodeChain n

theorem self_mem_nodeChain (t : DepNode) : t ∈ nodeChain t := by
  cases t <;> simp [nodeChain]

theorem getVNode_of_mem_nodeChain {u t : DepNode} (h : u ∈ nodeChain t) :
    u.getVNode = t.getVNode := by
  match t with
  | .vnode i =>
      simp only [nodeChain, List.mem_singleton] at h
      rw [h]
  | .tree ds n =>
      simp only [nodeChain, List.mem_cons] at h
      rcases h with h | h
      · rw [h]
      · rw [getVNode_of_mem_nodeChain h]
        rfl

theorem sizeOf_of_mem_nodeChain {u t : DepNode} (h : u ∈ nodeChain t) :
    sizeOf u ≤ sizeOf t := by
  match t with
  | .vnode i =>
      simp only [nodeChain, List.mem_singleton] at h
      rw [h]
  | .tree ds n =>
      simp only [nodeChain, List.mem_cons] at h
      rcases h with h | h
      · rw [h]
      · have := sizeOf_of_mem_nodeChain h
        simp only [DepNode.tree.sizeOf_spec]
        omega

theorem nodeChain_trans {u t : DepNode} (h : u ∈ nodeChain t) :
    ∀ w ∈ nodeChain u, w ∈ nodeChain t := by
  match t with
  | .vnode i =>
      simp only [nodeChain, List.mem_singleton] at h
      rw [h]
      intro w hw
      exact hw
  | .tree ds n =>
      simp only [nodeChain, List.mem_cons] at h
      rcases h with h | h
      · rw [h]
        intro w hw
        exact hw
      · intro w hw
        simp only [nodeChain, List.mem_cons]
        exact Or.inr (nodeChain_trans h w hw)

theorem mem_allIds_of_mem_nodeChain {u t : DepNode} (h : u ∈ nodeChain t) :
    ∀ i, i ∈ allIds u → i ∈ allIds t := by
  match t with
  | .vnode i =>
      simp only [nodeChain, List.mem_singleton] at h
      rw [h]
      intro j hj
      exact hj
  | .tree ds n =>
      simp only [nodeChain, List.mem_cons] at h
      rcases h with h | h
      · rw [h]
        intro j hj
        exact hj
      · intro j hj
        exact allIds_node_subset ds n j (mem_allIds_of_mem_nodeChain h j hj)

/-- Fold a `dfs`-preserved state invariant over a list of nodes. -/
theorem foldl_dfs_inv {I : ResolveState → Prop} :
    ∀ (l : List DepNode) (s : ResolveState),
      (∀ s' d, d ∈ l → I s' → I (dfs s' d)) → I s → I (l.foldl dfs s) := by
  intro l
  induction l with
  | nil => intro s _ hs; exact hs
  | cons d rest ih =>
      intro s h hs
      rw [List.foldl_cons]
      exact ih (dfs s d)
        (fun s' d' hd' => h s' d' (List.mem_cons_of_mem _ hd'))
        (h s d (List.mem_cons_self _ _) hs)

/-- Fold a reflexive-transitive `dfs` step relation over a list of nodes. -/
theorem foldl_dfs_rel {R : ResolveState → ResolveState → Prop}
    (htrans : ∀ a b c, R a b → R b c → R a c) (hrefl : ∀ s, R s s) :
    ∀ (l : List DepNode) (s : ResolveState),
      (∀ s' d, d ∈ l → R s' (dfs s' d)) → R s (l.foldl dfs s) := by
  intro l
  induction l with
  | nil => intro s _; exact hrefl s
  | cons d rest ih =>
      intro s h
      rw [List.foldl_cons]
      exact htrans _ _ _ (h s d (List.mem_cons_self _ _))
        (ih (dfs s d) (fun s' d' hd' => h s' d' (List.mem_cons_of_mem _ hd')))

/-- Output growth of a `dfs` run: the order is only appended to, and the
visited set only grows. -/
def StateLe (s s' : ResolveState) : Prop :=
  (∃ Δ, s'.order = s.order ++ Δ) ∧ ∀ x ∈ s.visited, x ∈ s'.visited

theorem stateLe_refl (s : ResolveState) : StateLe s s :=
  ⟨⟨[], by simp⟩, fun _ hx => hx⟩

theorem stateLe_trans (a b c : ResolveState) (h1 : StateLe a b) (h2 : StateLe b c) :
    StateLe a c := by
  obtain ⟨⟨d1, hd1⟩, hv1⟩ := h1
  obtain ⟨⟨d2, hd2⟩, hv2⟩ := h2
  exact ⟨⟨d1 ++ d2, by rw [hd2, hd1, List.append_assoc]⟩,
    fun x hx => hv2 x (hv1 x hx)⟩

theorem dfs_stateLe (t : DepNode) : ∀ s, StateLe s (dfs s t) := by
  intro s
  rw [dfs_eq]
  by_cases hv : t ∈ s.visited
  · rw [if_pos hv]
    exact stateLe_refl s
  · rw [if_neg hv]
    cases t with
    | vnode i =>
        show StateLe s (if DepNode.vnode i ∈ s.visited then s
          else ⟨s.order ++ [DepNode.vnode i], DepNode.vnode i :: s.visited⟩)
        by_cases hv2 : DepNode.vnode i ∈ s.visited
        · rw [if_pos hv2]
          exact stateLe_refl s
        · rw [if_neg hv2]
          exact ⟨⟨[DepNode.vnode i], rfl⟩, fun x hx => List.mem_cons_of_mem _ hx⟩
    | tree deps node =>
        show StateLe s
          (dfs (deps.foldl dfs ⟨s.order, DepNode.tree deps node :: s.visited⟩) node)
        have h1 : StateLe s ⟨s.order, DepNode.tree deps node :: s.visited⟩ :=
          ⟨⟨[], by simp⟩, fun x hx => List.mem_cons_of_mem _ hx⟩
        have h2 := foldl_dfs_rel stateLe_trans stateLe_refl deps
          ⟨s.order, DepNode.tree deps node :: s.visited⟩
          (fun s' d _ => dfs_stateLe d s')
        have h3 := dfs_stateLe node
          (deps.foldl dfs ⟨s.order, DepNode.tree deps node :: s.visited⟩)
        exact stateLe_trans _ _ _ (stateLe_trans _ _ _ h1 h2) h3
termination_by sizeOf t
decreasing_by
  · have h1 := sizeOf_mem_lt (by assumption : d ∈ deps)
    simp only [DepNode.tree.sizeOf_spec]
    omega
  · simp only [DepNode.tree.sizeOf_spec]
    omega

/-- Everything `dfs` appends to the order is a VNode occurring in the
processed declaration. -/
theorem dfs_order_newIds (t : DepNode) :
    ∀ s x, x ∈ (dfs s t).order →
      x ∈ s.order ∨ ∃ i, i ∈ allIds t ∧ x = DepNode.vnode i := by
  intro s x
  rw [dfs_eq]
  by_cases hv : t ∈ s.visited
  · rw [if_pos hv]
    exact fun h => Or.inl h
  · rw [if_neg hv]
    cases t with
    | vnode i =>
        show x ∈ (if DepNode.vnode i ∈ s.visited then s
            else ⟨s.order ++ [DepNode.vnode i], DepNode.vnode i :: s.visited⟩).order → _
        by_cases hv2 : DepNode.vnode i ∈ s.visited
        · rw [if_pos hv2]
          exact fun h => Or.inl h
        · rw [if_neg hv2]
          intro h
          rcases List.mem_append.mp h with h | h
          · exact Or.inl h
          · refine Or.inr ⟨i, ?_, List.mem_singleton.mp h⟩
            rw [allIds_vnode]
            exact List.mem_singleton.mpr rfl
    | tree deps node =>
        show x ∈ (dfs (deps.foldl dfs ⟨s.order, DepNode.tree deps node :: s.visited⟩) node).order → _
        intro h
        rcases dfs_order_newIds node _ x h with h | ⟨i, hi, hx⟩
        · -- came from the fold over the dependencies
          have hfold : ∀ (l : List DepNode) (s' : ResolveState),
              (∀ d ∈ l, d ∈ deps) →
              ∀ y, y ∈ (l.foldl dfs s').order →
                y ∈ s'.order ∨ ∃ i, i ∈ allIds (DepNode.tree deps node) ∧ y = DepNode.vnode i := by
            intro l
            induction l with
            | nil => intro s' _ y hy; exact Or.inl hy
            | cons d rest ih =>
                intro s' hsub y hy
                rw [List.foldl_cons] at hy
                rcases ih (dfs s' d) (fun d' hd' => hsub d' (List.mem_cons_of_mem _ hd')) y hy with hy | hy
                · rcases dfs_order_newIds d s' y hy with hy | ⟨i, hi, hx⟩
                  · exact Or.inl hy
                  · exact Or.inr ⟨i,
                      allIds_subset_of_mem_deps node (hsub d (List.mem_cons_self _ _)) i hi, hx⟩
                · exact Or.inr hy
          rcases hfold deps ⟨s.order, DepNode.tree deps node :: s.visited⟩ (fun d hd => hd) x h
            with h | h
          · exact Or.inl h
          · exact Or.inr h
        · exact Or.inr ⟨i, allIds_node_subset deps node i hi, hx⟩
termination_by sizeOf t
decreasing_by
  · simp only [DepNode.tree.sizeOf_spec]
    omega
  · have h1 := sizeOf_mem_lt (hsub d (List.mem_cons_self _ _))
    simp only [DepNode.tree.sizeOf_spec]
    omega

/-- Everything `dfs` adds to the visited set is a subterm of the
processed declaration; in particular all of its VNode identities occur in
the declaration. -/
theorem dfs_visited_newIds (t : DepNode) :
    ∀ s x, x ∈ (dfs s t).visited →
      x ∈ s.visited ∨ ∀ i, i ∈ allIds x → i ∈ allIds t := by
  intro s x
  rw [dfs_eq]
  by_cases hv : t ∈ s.visited
  · rw [if_pos hv]
    exact fun h => Or.inl h
  · rw [if_neg hv]
    cases t with
    | vnode i =>
        show x ∈ (if DepNode.vnode i ∈ s.visited then s
            else ⟨s.order ++ [DepNode.vnode i], DepNode.vnode i :: s.visited⟩).visited → _
        by_cases hv2 : DepNode.vnode i ∈ s.visited
        · rw [if_pos hv2]
          exact fun h => Or.inl h
        · rw [if_neg hv2]
          intro h
          rcases List.mem_cons.mp h with h | h
          · rw [h]
            exact Or.inr (fun j hj => hj)
          · exact Or.inl h
    | tree deps node =>
        show x ∈ (dfs (deps.foldl dfs ⟨s.order, DepNode.tree deps node :: s.visited⟩) node).visited → _
        intro h
        rcases dfs_visited_newIds node _ x h with h | hsub
        · have hfold : ∀ (l : List DepNode) (s' : ResolveState),
              (∀ d ∈ l, d ∈ deps) →
              ∀ y, y ∈ (l.foldl dfs s').visited →
                y ∈ s'.visited ∨ ∀ i, i ∈ allIds y → i ∈ allIds (DepNode.tree deps node) := by
            intro l
            induction l with
            | nil => intro s' _ y hy; exact Or.inl hy
            | cons d rest ih =>
                intro s' hsub y hy
                rw [List.foldl_cons] at hy
                rcases ih (dfs s' d) (fun d' hd' => hsub d' (List.mem_cons_of_mem _ hd')) y hy with hy | hy
                · rcases dfs_visited_newIds d s' y hy with hy | hy
                  · exact Or.inl hy
                  · exact Or.inr (fun i hi =>
                      allIds_subset_of_mem_deps node (hsub d (List.mem_cons_self _ _)) i (hy i hi))
                · exact Or.inr hy
          rcases hfold deps ⟨s.order, DepNode.tree deps node :: s.visited⟩ (fun d hd => hd) x h
            with h | h
          · rcases List.mem_cons.mp h with h | h
            · rw [h]
              exact Or.inr (fun j hj => hj)
            · exact Or.inl h
          · exact Or.inr h
        · exact Or.inr (fun i hi => allIds_node_subset deps node i (hsub i hi))
termination_by sizeOf t
decreasing_by
  · simp only [DepNode.tree.sizeOf_spec]
    omega
  · have h1 := sizeOf_mem_lt (hsub d (List.mem_cons_self _ _))
    simp only [DepNode.tree.sizeOf_spec]
    omega

/-- The standing state invariant of the resolver: the output order holds
only raw VNodes, a VNode is in the visited set exactly when it is in the
output, and the output has no duplicates. -/
def GoodState (s : ResolveState) : Prop :=
  (∀ x ∈ s.order, ∃ i, x = DepNode.vnode i)
  ∧ (∀ i, DepNode.vnode i ∈ s.visited ↔ DepNode.vnode i ∈ s.order)
  ∧ s.order.Nodup

theorem dfs_goodState (t : DepNode) : ∀ s, GoodState s → GoodState (dfs s t) := by
  intro s hs
  rw [dfs_eq]
  by_cases hv : t ∈ s.visited
  · rw [if_pos hv]
    exact hs
  · rw [if_neg hv]
    cases t with
    | vnode i =>
        show GoodState (if DepNode.vnode i ∈ s.visited then s
          else ⟨s.order ++ [DepNode.vnode i], DepNode.vnode i :: s.visited⟩)
        by_cases hv2 : DepNode.vnode i ∈ s.visited
        · rw [if_pos hv2]
          exact hs
        · rw [if_neg hv2]
          obtain ⟨hvn, hvi, hnd⟩ := hs
          have hnotin : DepNode.vnode i ∉ s.order := fun hc => hv2 ((hvi i).mpr hc)
          refine ⟨?_, ?_, ?_⟩
          · intro x hx
            rcases List.mem_append.mp hx with hx | hx
            · exact hvn x hx
            · exact ⟨i, List.mem_singleton.mp hx⟩
          · intro j
            constructor
            · intro hj
              rcases List.mem_cons.mp hj with hj | hj
              · rw [hj]
                exact List.mem_append_right _ (List.mem_singleton.mpr rfl)
              · exact List.mem_append_left _ ((hvi j).mp hj)
            · intro hj
              rcases List.mem_append.mp hj with hj | hj
              · exact List.mem_cons_of_mem _ ((hvi j).mpr hj)
              · rw [List.mem_singleton.mp hj]
                exact List.mem_cons_self _ _
          · rw [List.nodup_append]
            exact ⟨hnd, List.nodup_singleton _,
              fun a ha hb => hnotin (List.mem_singleton.mp hb ▸ ha)⟩
    | tree deps node =>
        show GoodState (dfs (deps.foldl dfs ⟨s.order, DepNode.tree deps node :: s.visited⟩) node)
        have hs1 : GoodState ⟨s.order, DepNode.tree deps node :: s.visited⟩ := by
          obtain ⟨hvn, hvi, hnd⟩ := hs
          refine ⟨hvn, ?_, hnd⟩
          intro j
          rw [← hvi j]
          constructor
          · intro hj
            rcases List.mem_cons.mp hj with hj | hj
            · exact absurd hj.symm (by intro hc; exact DepNode.noConfusion hc)
            · exact hj
          · intro hj
            exact List.mem_cons_of_mem _ hj
        have hs2 := foldl_dfs_inv deps ⟨s.order, DepNode.tree deps node :: s.visited⟩
          (fun s' d hd => dfs_goodState d s') hs1
        exact dfs_goodState node _ hs2
termination_by sizeOf t
decreasing_by
  · have h1 := sizeOf_mem_lt hd
    simp only [DepNode.tree.sizeOf_spec]
    omega
  · simp only [DepNode.tree.sizeOf_spec]
    omega

/-- The completeness invariant of the traversal: every wrapper in the
visited set either already has its underlying VNode in the output, or its
node chain passes through one of the in-progress ancestors `E`. -/
def TreeInv (s : ResolveState) (E : List DepNode) : Prop :=
  ∀ tr ∈ s.visited, tr.isTree = true →
    DepNode.vnode tr.getVNode ∈ s.order ∨ ∃ u ∈ nodeChain tr, u ∈ E

/-- Completeness of `dfs`: under the standing invariants, running `dfs`
on a declaration either puts its underlying VNode into the output, or the
declaration's node chain runs through an in-progress ancestor. -/
theorem dfs_complete (t : DepNode) :
    ∀ (s : ResolveState) (E : List DepNode), TreeInv s E → GoodState s →
      TreeInv (dfs s t) E ∧
        (DepNode.vnode t.getVNode ∈ (dfs s t).order ∨ ∃ u ∈ nodeChain t, u ∈ E) := by
  intro s E hinv hgood
  rw [dfs_eq]
  by_cases hv : t ∈ s.visited
  · rw [if_pos hv]
    refine ⟨hinv, ?_⟩
    cases t with
    | vnode i =>
        exact Or.inl ((hgood.2.1 i).mp hv)
    | tree deps node =>
        exact hinv _ hv rfl
  · rw [if_neg hv]
    cases t with
    | vnode i =>
        show TreeInv (if DepNode.vnode i ∈ s.visited then s
            else ⟨s.order ++ [DepNode.vnode i], DepNode.vnode i :: s.visited⟩) E ∧
          (DepNode.vnode i ∈ (if DepNode.vnode i ∈ s.visited then s
            else ⟨s.order ++ [DepNode.vnode i], DepNode.vnode i :: s.visited⟩).order ∨
              ∃ u ∈ nodeChain (DepNode.vnode i), u ∈ E)
        by_cases hv2 : DepNode.vnode i ∈ s.visited
        · rw [if_pos hv2]
          exact ⟨hinv, Or.inl ((hgood.2.1 i).mp hv2)⟩
        · rw [if_neg hv2]
          constructor
          · intro tr htr htree
            rcases List.mem_cons.mp htr with htr | htr
            · rw [htr] at htree
              exact absurd htree (by simp [DepNode.isTree])
            · rcases hinv tr htr htree with h | h
              · exact Or.inl (List.mem_append_left _ h)
              · exact Or.inr h
          · exact Or.inl (List.mem_append_right _ (List.mem_singleton.mpr rfl))
    | tree deps node =>
        show TreeInv (dfs (deps.foldl dfs ⟨s.order, DepNode.tree deps node :: s.visited⟩) node) E ∧ _
        set t0 := DepNode.tree deps node with ht0
        have hs1inv : TreeInv ⟨s.order, t0 :: s.visited⟩ (t0 :: E) := by
          intro tr htr htree
          rcases List.mem_cons.mp htr with htr | htr
          · rw [htr]
            exact Or.inr ⟨t0, self_mem_nodeChain t0, List.mem_cons_self _ _⟩
          · rcases hinv tr htr htree with h | ⟨u, hu, hue⟩
            · exact Or.inl h
            · exact Or.inr ⟨u, hu, List.mem_cons_of_mem _ hue⟩
        have hs1good : GoodState ⟨s.order, t0 :: s.visited⟩ := by
          obtain ⟨hvn, hvi, hnd⟩ := hgood
          refine ⟨hvn, ?_, hnd⟩
          intro j
          rw [← hvi j]
          constructor
          · intro hj
            rcases List.mem_cons.mp hj with hj | hj
            · exact absurd hj.symm (by intro hc; exact DepNode.noConfusion hc)
            · exact hj
          · intro hj
            exact List.mem_cons_of_mem _ hj
        have hs2 := foldl_dfs_inv (I := fun s' => TreeInv s' (t0 :: E) ∧ GoodState s')
          deps ⟨s.order, t0 :: s.visited⟩
          (fun s' d hd hI => ⟨(dfs_complete d s' (t0 :: E) hI.1 hI.2).1, dfs_goodState d s' hI.2⟩)
          ⟨hs1inv, hs1good⟩
        have hnode := dfs_complete node (deps.foldl dfs ⟨s.order, t0 :: s.visited⟩) (t0 :: E)
          hs2.1 hs2.2
        -- the conclusion for t0 itself
        have hP : DepNode.vnode t0.getVNode
              ∈ (dfs (deps.foldl dfs ⟨s.order, t0 :: s.visited⟩) node).order
            ∨ ∃ u ∈ nodeChain t0, u ∈ E := by
          rcases hnode.2 with h | ⟨u, hu, hue⟩
          · exact Or.inl h
          · rcases List.mem_cons.mp hue with hut | hue
            · exfalso
              have hle := sizeOf_of_mem_nodeChain hu
              rw [hut, ht0] at hle
              simp only [DepNode.tree.sizeOf_spec] at hle
              omega
            · exact Or.inr ⟨u, by
                rw [ht0]
                simp only [nodeChain, List.mem_cons]
                exact Or.inr hu, hue⟩
        refine ⟨?_, hP⟩
        -- restore the invariant with respect to `E`
        intro tr htr htree
        rcases hnode.1 tr htr htree with h | ⟨u, hu, hue⟩
        · exact Or.inl h
        · rcases List.mem_cons.mp hue with hut | hue
          · -- the chain of `tr` passes through `t0` itself
            rw [hut] at hu
            have hgv : tr.getVNode = t0.getVNode := (getVNode_of_mem_nodeChain hu).symm
            rcases hP with h | ⟨w, hw, hwe⟩
            · rw [hgv]
              exact Or.inl h
            · exact Or.inr ⟨w, nodeChain_trans hu w hw, hwe⟩
          · exact Or.inr ⟨u, hu, hue⟩
termination_by sizeOf t
decreasing_by
  · have h1 := sizeOf_mem_lt hd
    simp only [DepNode.tree.sizeOf_spec]
    omega
  · simp only [DepNode.tree.sizeOf_spec]
    omega

theorem foldl_order_newIds (l : List DepNode) :
    ∀ s x, x ∈ (l.foldl dfs s).order →
      x ∈ s.order ∨ ∃ u ∈ l, ∃ i, i ∈ allIds u ∧ x = DepNode.vnode i := by
  induction l with
  | nil => intro s x hx; exact Or.inl hx
  | cons d rest ih =>
      intro s x hx
      rw [List.foldl_cons] at hx
      rcases ih (dfs s d) x hx with hx | ⟨u, hu, hrest⟩
      · rcases dfs_order_newIds d s x hx with hx | ⟨i, hi, hxi⟩
        · exact Or.inl hx
        · exact Or.inr ⟨d, List.mem_cons_self _ _, i, hi, hxi⟩
      · exact Or.inr ⟨u, List.mem_cons_of_mem _ hu, hrest⟩

theorem foldl_visited_newIds (l : List DepNode) :
    ∀ s x, x ∈ (l.foldl dfs s).visited →
      x ∈ s.visited ∨ ∃ u ∈ l, ∀ i, i ∈ allIds x → i ∈ allIds u := by
  induction l with
  | nil => intro s x hx; exact Or.inl hx
  | cons d rest ih =>
      intro s x hx
      rw [List.foldl_cons] at hx
      rcases ih (dfs s d) x hx with hx | ⟨u, hu, hrest⟩
      · rcases dfs_visited_newIds d s x hx with hx | hsub
        · exact Or.inl hx
        · exact Or.inr ⟨d, List.mem_cons_self _ _, hsub⟩
      · exact Or.inr ⟨u, List.mem_cons_of_mem _ hu, hrest⟩

theorem foldl_treeInv_good (l : List DepNode) (s : ResolveState)
    (h : TreeInv s [] ∧ GoodState s) :
    TreeInv (l.foldl dfs s) [] ∧ GoodState (l.foldl dfs s) :=
  foldl_dfs_inv (I := fun s' => TreeInv s' [] ∧ GoodState s') l s
    (fun s' d _ hI => ⟨(dfs_complete d s' [] hI.1 hI.2).1, dfs_goodState d s' hI.2⟩) h

theorem goodState_empty : GoodState ⟨[], []⟩ := by
  refine ⟨?_, ?_, List.nodup_nil⟩
  · intro x hx
    exact absurd hx (List.not_mem_nil x)
  · intro i
    constructor
    · intro h
      exact absurd h (List.not_mem_nil _)
    · intro h
      exact absurd h (List.not_mem_nil _)

theorem treeInv_empty : TreeInv ⟨[], []⟩ [] := by
  intro tr htr _
  exact absurd htr (List.not_mem_nil tr)

/-- The completeness conclusion of `dfs_complete` with no in-progress
ancestors: the underlying VNode is always placed in the output. -/
theorem dfs_complete_nil (t : DepNode) (s : ResolveState)
    (h1 : TreeInv s []) (h2 : GoodState s) :
    DepNode.vnode t.getVNode ∈ (dfs s t).order := by
  rcases (dfs_complete t s [] h1 h2).2 with h | ⟨u, _, hue⟩
  · exact h
  · exact absurd hue (List.not_mem_nil u)

/-- C3: `declare([declare([], X)], X)` — a wrapper whose single dependency
is a wrapper whose underlying node is the very node being wrapped — is
rejected at construction with `CircularDependencyError` (the inner
`declare` itself succeeds, so the error is raised by the outer
construction, before any rendering).  A deeper cycle is not rejected: with
`C = declare([], X)`, `B = declare([C], Y)` and `A = declare([B], X)`,
`A`'s dependency chain reaches `X` through the intermediate `B`, yet every
construction succeeds — the one-hop check only inspects the direct
dependencies' underlying nodes — and resolving `[A]` returns normally
(`[X, Y]`): the already-visited node `X` is silently skipped by the
visited-set guard, with no error raised. -/
theorem claim_C3 :
    (do
      let d ← depends [] (DepNode.vnode 0)
      depends [d] (DepNode.vnode 0)) = .error "Circular dependency detected"
  ∧ (do
      let c ← depends [] (DepNode.vnode 0)
      let b ← depends [c] (DepNode.vnode 1)
      depends [b] (DepNode.vnode 0))
      = .ok (.tree [.tree [.tree [] (.vnode 0)] (.vnode 1)] (.vnode 0))
  ∧ unravelOrderOfDependencies [.tree [.tree [.tree [] (.vnode 0)] (.vnode 1)] (.vnode 0)]
      = [.vnode 0, .vnode 1] := by
  refine ⟨rfl, rfl, ?_⟩
  simp [unravelOrderOfDependencies, dfs_eq]

/-- C10: the resolver's output contains only raw VNodes — never a
wrapper — and no node appears twice, however often it is supplied or
reached through dependency lists. -/
theorem claim_C10 (ts : List DepNode) :
    (∀ x ∈ unravelOrderOfDependencies ts, ∃ i, x = DepNode.vnode i)
    ∧ (unravelOrderOfDependencies ts).Nodup := by
  have h := foldl_dfs_inv (I := GoodState) ts ⟨[], []⟩
    (fun s' d _ => dfs_goodState d s') goodState_empty
  exact ⟨h.1, h.2.2⟩

/-- Witness for C10: a node supplied twice raw and once wrapped still
appears exactly once in the (duplicate-free) output. -/
theorem claim_C10_witness :
    (unravelOrderOfDependencies [.vnode 5, .vnode 5, .tree [] (.vnode 5)]).Nodup
    ∧ unravelOrderOfDependencies [.vnode 5, .vnode 5, .tree [] (.vnode 5)]
        = [.vnode 5] := by
  refine ⟨(claim_C10 [.vnode 5, .vnode 5, .tree [] (.vnode 5)]).2, ?_⟩
  simp [unravelOrderOfDependencies, dfs_eq]

/-- C4 counterexample: the claim quantifies over every input sequence
containing `D1` and `D2 = declare([D1], n2)`, but when `D2`'s underlying
node `n2` is itself supplied earlier in the sequence, the resolver visits
it first: with the input `[n2, D1, D2]` (here `n2` is node `2` and `D1`
node `1`) the output is `[2, 1]`, which does not place `D1`'s node before
`D2`'s node. -/
theorem claim_C4_counterexample :
    unravelOrderOfDependencies [.vnode 2, .vnode 1, .tree [.vnode 1] (.vnode 2)]
      = [.vnode 2, .vnode 1]
    ∧ ¬ List.Sublist [DepNode.vnode 1, DepNode.vnode 2]
        [DepNode.vnode 2, DepNode.vnode 1] := by
  constructor
  · simp [unravelOrderOfDependencies, dfs_eq]
  · intro h
    have hlen : ([DepNode.vnode 1, DepNode.vnode 2]).length
        = ([DepNode.vnode 2, DepNode.vnode 1]).length := by simp
    have heq := List.Sublist.eq_of_length h hlen
    have h1 : DepNode.vnode 1 = DepNode.vnode 2 := by
      injection heq
    injection h1 with h2
    exact Nat.noConfusion (Nat.succ.inj h2)

/-- C4 (amended): in the output of `resolve`, a declaration `D1`'s
underlying node precedes the underlying node of a declaration
`D2 = declare([D1], n2)`, provided `D2`'s underlying node does not occur
in any declaration supplied before `D2` nor inside `D1` itself; and two
declarations with no ordering constraint between them keep their supplied
order, provided the later one's underlying node does not occur in any
earlier-supplied declaration.  (`[x, y] <+ out` states that `x` occurs
before `y` in the output; by C10 each occurs at most once.) -/
theorem claim_C4 :
    (∀ (pre post : List DepNode) (D1 : DepNode) (i2 : Nat),
      D1.getVNode ≠ i2 →
      (∀ u ∈ pre, i2 ∉ allIds u) →
      i2 ∉ allIds D1 →
      List.Sublist [DepNode.vnode D1.getVNode, DepNode.vnode i2]
        (unravelOrderOfDependencies (pre ++ DepNode.tree [D1] (DepNode.vnode i2) :: post)))
  ∧ (∀ (p1 : List DepNode) (t1 : DepNode) (p2 : List DepNode) (t2 : DepNode)
        (p3 : List DepNode),
      (∀ u ∈ p1 ++ t1 :: p2, t2.getVNode ∉ allIds u) →
      List.Sublist [DepNode.vnode t1.getVNode, DepNode.vnode t2.getVNode]
        (unravelOrderOfDependencies (p1 ++ t1 :: (p2 ++ t2 :: p3)))) := by
  constructor
  · intro pre post D1 i2 hne hpre hD1
    rw [unravelOrderOfDependencies, List.foldl_append, List.foldl_cons]
    have h1 := foldl_treeInv_good pre ⟨[], []⟩ ⟨treeInv_empty, goodState_empty⟩
    have hv2no : DepNode.vnode i2 ∉ (pre.foldl dfs ⟨[], []⟩).order := by
      intro hc
      rcases foldl_order_newIds pre ⟨[], []⟩ _ hc with hc | ⟨u, hu, i, hi, hx⟩
      · exact absurd hc (List.not_mem_nil _)
      · have : i2 = i := by injection hx
        rw [this] at hpre
        exact hpre u hu hi
    have hD2no : DepNode.tree [D1] (DepNode.vnode i2) ∉ (pre.foldl dfs ⟨[], []⟩).visited := by
      intro hc
      rcases foldl_visited_newIds pre ⟨[], []⟩ _ hc with hc | ⟨u, hu, hsub⟩
      · exact absurd hc (List.not_mem_nil _)
      · refine hpre u hu (hsub i2 ?_)
        refine allIds_node_subset [D1] (DepNode.vnode i2) i2 ?_
        rw [allIds_vnode]
        exact List.mem_singleton.mpr rfl
    have hD2step : dfs (pre.foldl dfs ⟨[], []⟩) (DepNode.tree [D1] (DepNode.vnode i2))
        = dfs (dfs ⟨(pre.foldl dfs ⟨[], []⟩).order,
            DepNode.tree [D1] (DepNode.vnode i2) :: (pre.foldl dfs ⟨[], []⟩).visited⟩ D1)
          (DepNode.vnode i2) := by
      conv_lhs => rw [dfs_eq]
      rw [if_neg hD2no]
      show dfs ([D1].foldl dfs ⟨(pre.foldl dfs ⟨[], []⟩).order,
          DepNode.tree [D1] (DepNode.vnode i2) :: (pre.foldl dfs ⟨[], []⟩).visited⟩)
        (DepNode.vnode i2) = _
      rw [List.foldl_cons, List.foldl_nil]
    rw [hD2step]
    have hs1'inv : TreeInv ⟨(pre.foldl dfs ⟨[], []⟩).order,
        DepNode.tree [D1] (DepNode.vnode i2) :: (pre.foldl dfs ⟨[], []⟩).visited⟩
        [DepNode.tree [D1] (DepNode.vnode i2)] := by
      intro tr htr htree
      rcases List.mem_cons.mp htr with htr | htr
      · rw [htr]
        exact Or.inr ⟨_, self_mem_nodeChain _, List.mem_cons_self _ _⟩
      · rcases h1.1 tr htr htree with h | ⟨u, _, hue⟩
        · exact Or.inl h
        · exact absurd hue (List.not_mem_nil u)
    have hs1'good : GoodState ⟨(pre.foldl dfs ⟨[], []⟩).order,
        DepNode.tree [D1] (DepNode.vnode i2) :: (pre.foldl dfs ⟨[], []⟩).visited⟩ := by
      obtain ⟨hvn, hvi, hnd⟩ := h1.2
      refine ⟨hvn, ?_, hnd⟩
      intro j
      rw [← hvi j]
      constructor
      · intro hj
        rcases List.mem_cons.mp hj with hj | hj
        · exact absurd hj.symm (by intro hc; exact DepNode.noConfusion hc)
        · exact hj
      · intro hj
        exact List.mem_cons_of_mem _ hj
    have hcomp := dfs_complete D1 _ _ hs1'inv hs1'good
    have hi1 : DepNode.vnode D1.getVNode
        ∈ (dfs ⟨(pre.foldl dfs ⟨[], []⟩).order,
            DepNode.tree [D1] (DepNode.vnode i2) :: (pre.foldl dfs ⟨[], []⟩).visited⟩ D1).order := by
      rcases hcomp.2 with h | ⟨u, hu, hue⟩
      · exact h
      · exfalso
        have hu2 : u = DepNode.tree [D1] (DepNode.vnode i2) := List.mem_singleton.mp hue
        rw [hu2] at hu
        have hle := sizeOf_of_mem_nodeChain hu
        simp only [DepNode.tree.sizeOf_spec, List.cons.sizeOf_spec, List.nil.sizeOf_spec] at hle
        omega
    have hs2good := dfs_goodState D1 _ hs1'good
    have hv2nos2 : DepNode.vnode i2
        ∉ (dfs ⟨(pre.foldl dfs ⟨[], []⟩).order,
            DepNode.tree [D1] (DepNode.vnode i2) :: (pre.foldl dfs ⟨[], []⟩).visited⟩ D1).order := by
      intro hc
      rcases dfs_order_newIds D1 _ _ hc with hc | ⟨i, hi, hx⟩
      · exact hv2no hc
      · have : i2 = i := by injection hx
        rw [this] at hD1
        exact hD1 hi
    have hv2nov : DepNode.vnode i2
        ∉ (dfs ⟨(pre.foldl dfs ⟨[], []⟩).order,
            DepNode.tree [D1] (DepNode.vnode i2) :: (pre.foldl dfs ⟨[], []⟩).visited⟩ D1).visited :=
      fun hc => hv2nos2 ((hs2good.2.1 i2).mp hc)
    have hstep : dfs (dfs ⟨(pre.foldl dfs ⟨[], []⟩).order,
          DepNode.tree [D1] (DepNode.vnode i2) :: (pre.foldl dfs ⟨[], []⟩).visited⟩ D1)
        (DepNode.vnode i2)
        = ⟨(dfs ⟨(pre.foldl dfs ⟨[], []⟩).order,
            DepNode.tree [D1] (DepNode.vnode i2) :: (pre.foldl dfs ⟨[], []⟩).visited⟩ D1).order
              ++ [DepNode.vnode i2],
           DepNode.vnode i2 :: (dfs ⟨(pre.foldl dfs ⟨[], []⟩).order,
            DepNode.tree [D1] (DepNode.vnode i2) :: (pre.foldl dfs ⟨[], []⟩).visited⟩ D1).visited⟩ := by
      rw [dfs_eq]
      rw [if_neg hv2nov]
      show (if DepNode.vnode i2 ∈ (dfs ⟨(pre.foldl dfs ⟨[], []⟩).order,
            DepNode.tree [D1] (DepNode.vnode i2) :: (pre.foldl dfs ⟨[], []⟩).visited⟩ D1).visited
          then _ else _) = _
      rw [if_neg hv2nov]
    rw [hstep]
    obtain ⟨⟨Δ, hΔ⟩, _⟩ := foldl_dfs_rel stateLe_trans stateLe_refl post _
      (fun s' d _ => dfs_stateLe d s')
    rw [hΔ]
    show List.Sublist ([DepNode.vnode D1.getVNode] ++ [DepNode.vnode i2]) _
    rw [List.append_assoc]
    exact List.Sublist.append (List.singleton_sublist.mpr hi1)
      (List.sublist_append_left [DepNode.vnode i2] Δ)
  · intro p1 t1 p2 t2 p3 hfresh
    rw [unravelOrderOfDependencies, List.foldl_append, List.foldl_cons,
      List.foldl_append, List.foldl_cons]
    have hA := foldl_treeInv_good p1 ⟨[], []⟩ ⟨treeInv_empty, goodState_empty⟩
    have hi1 : DepNode.vnode t1.getVNode ∈ (dfs (p1.foldl dfs ⟨[], []⟩) t1).order :=
      dfs_complete_nil t1 _ hA.1 hA.2
    have hB : TreeInv (dfs (p1.foldl dfs ⟨[], []⟩) t1) []
        ∧ GoodState (dfs (p1.foldl dfs ⟨[], []⟩) t1) :=
      ⟨(dfs_complete t1 _ [] hA.1 hA.2).1, dfs_goodState t1 _ hA.2⟩
    have hC := foldl_treeInv_good p2 _ hB
    have hi1C : DepNode.vnode t1.getVNode
        ∈ ((p2.foldl dfs (dfs (p1.foldl dfs ⟨[], []⟩) t1))).order := by
      obtain ⟨⟨Δ, hΔ⟩, _⟩ := foldl_dfs_rel stateLe_trans stateLe_refl p2 _
        (fun s' d _ => dfs_stateLe d s')
      rw [hΔ]
      exact List.mem_append_left _ hi1
    have hi2no : DepNode.vnode t2.getVNode
        ∉ ((p2.foldl dfs (dfs (p1.foldl dfs ⟨[], []⟩) t1))).order := by
      intro hc
      rcases foldl_order_newIds p2 _ _ hc with hc | ⟨u, hu, i, hi, hx⟩
      · rcases dfs_order_newIds t1 _ _ hc with hc | ⟨i, hi, hx⟩
        · rcases foldl_order_newIds p1 _ _ hc with hc | ⟨u, hu, i, hi, hx⟩
          · exact absurd hc (List.not_mem_nil _)
          · have : t2.getVNode = i := by injection hx
            rw [this] at hfresh
            exact hfresh u (List.mem_append_left _ hu) hi
        · have : t2.getVNode = i := by injection hx
          rw [this] at hfresh
          exact hfresh t1 (List.mem_append_right _ (List.mem_cons_self _ _)) hi
      · have : t2.getVNode = i := by injection hx
        rw [this] at hfresh
        exact hfresh u (List.mem_append_right _ (List.mem_cons_of_mem _ hu)) hi
    have hi2 : DepNode.vnode t2.getVNode
        ∈ (dfs ((p2.foldl dfs (dfs (p1.foldl dfs ⟨[], []⟩) t1))) t2).order :=
      dfs_complete_nil t2 _ hC.1 hC.2
    obtain ⟨⟨Δ2, hΔ2⟩, _⟩ := dfs_stateLe t2 ((p2.foldl dfs (dfs (p1.foldl dfs ⟨[], []⟩) t1)))
    have hi2Δ : DepNode.vnode t2.getVNode ∈ Δ2 := by
      rw [hΔ2] at hi2
      rcases List.mem_append.mp hi2 with hc | hc
      · exact absurd hc hi2no
      · exact hc
    obtain ⟨⟨Δ3, hΔ3⟩, _⟩ := foldl_dfs_rel stateLe_trans stateLe_refl p3 _
      (fun s' d _ => dfs_stateLe d s')
    rw [hΔ3, hΔ2]
    show List.Sublist ([DepNode.vnode t1.getVNode] ++ [DepNode.vnode t2.getVNode]) _
    rw [List.append_assoc]
    exact List.Sublist.append (List.singleton_sublist.mpr hi1C)
      (List.singleton_sublist.mpr (List.mem_append_left _ hi2Δ))

/-- Witness for C4 at concrete inputs: resolving `[declare([1], 2)]`
places node 1 before node 2, and in `[7, 3, 4]` the unrelated nodes 3 and
4 keep their supplied order. -/
theorem claim_C4_witness :
    List.Sublist [DepNode.vnode 1, DepNode.vnode 2]
      (unravelOrderOfDependencies [.tree [.vnode 1] (.vnode 2)])
  ∧ List.Sublist [DepNode.vnode 3, DepNode.vnode 4]
      (unravelOrderOfDependencies [.vnode 7, .vnode 3, .vnode 4]) := by
  constructor
  · exact claim_C4.1 [] [] (.vnode 1) 2 (by decide)
      (fun u hu => absurd hu (List.not_mem_nil u))
      (by rw [allIds_vnode]; simp)
  · refine claim_C4.2 [.vnode 7] (.vnode 3) [] (.vnode 4) [] ?_
    intro u hu
    rcases List.mem_append.mp hu with hu | hu
    · rw [List.mem_singleton.mp hu, allIds_vnode]
      simp [DepNode.getVNode]
    · rw [List.mem_singleton.mp hu, allIds_vnode]
      simp [DepNode.getVNode]

/-! ## The batch driver (`renderFile`) -/

/-- JS `Array.prototype.indexOf`: the index of the first occurrence, or
`-1` when the element is absent (`orderOfExecution.indexOf(a.node)` in
`renderFile`). -/
def jsIndexOf : List Nat → Nat → Int
  | [], _ => -1
  | a :: l, x =>
      if a = x then 0
      else
        let r := jsIndexOf l x
        if r = -1 then -1 else r + 1

/-- Stable insertion of one entry into a list already sorted by the
comparator `(a, b) => indexOf(a.node) - indexOf(b.node)`: the inserted
entry, which originally preceded the others, goes before entries with an
equal key. -/
def insertEntry (order : List Nat) (x : String × Nat) :
    List (String × Nat) → List (String × Nat)
  | [] => [x]
  | y :: ys =>
      if jsIndexOf order x.2 ≤ jsIndexOf order y.2 then x :: y :: ys
      else y :: insertEntry order x ys

/-- The `.sort((a, b) => indexA - indexB)` call of `renderFile` as a
stable insertion sort (JS `Array.prototype.sort` is stable, so any
stable sort by the same key computes the same list). -/
def sortEntries (order : List Nat) : List (String × Nat) → List (String × Nat)
  | [] => []
  | x :: xs => insertEntry order x (sortEntries order xs)

/-- The value returned by `renderFile`: the fulfilled `{key, result}`
entries and the rejected ones. -/
structure BatchResult where
  fulfilled : List (String × Value)
  failures : List (String × Thrown)

/-- `Promise.allSettled` followed by the two `filter` calls of
`renderFile` (lines 32-39): every entry's outcome is collected, then
partitioned by status. -/
def settleAll (rs : List (String × Except Thrown Value)) : BatchResult :=
  { fulfilled := rs.filterMap (fun p => match p.2 with
      | .ok v => some (p.1, v)
      | .error _ => none)
  , failures := rs.filterMap (fun p => match p.2 with
      | .error er => some (p.1, er)
      | .ok _ => none) }

/-- The `renderFile` batch driver.  The module's exports are the
association list `mod` of names to nodes (`Object.entries`); the
execution order is resolved from the values, entries are mapped to their
underlying VNodes, sorted by position in the resolved order, rendered
(`acc[key] = renderToObject(node)` builds the promises object via the JS
property write), and settled.  `nodeOf` interprets a VNode id as the
renderable node it references. -/
def renderFile (env : Env) (fuel : Nat) (nodeOf : Nat → JNode)
    (mod : List (String × DepNode)) : BatchResult :=
  let orderOfExecution :=
    (unravelOrderOfDependencies (mod.map Prod.snd)).map DepNode.getVNode
  let entries := mod.map (fun p => (p.1, DepNode.getVNode p.2))
  let promisesMap :=
    (sortEntries orderOfExecution entries).foldl
      (fun acc p => setKey acc p.1 (renderToObject env fuel (nodeOf p.2) [])) []
  settleAll promisesMap

theorem insertEntry_perm (order : List Nat) (x : String × Nat)
    (l : List (String × Nat)) :
    List.Perm (insertEntry order x l) (x :: l) := by
  induction l with
  | nil => exact List.Perm.refl _
  | cons y ys ih =>
      simp only [insertEntry]
      split
      · exact List.Perm.refl _
      · exact List.Perm.trans (List.Perm.cons y ih) (List.Perm.swap x y ys)

theorem sortEntries_perm (order : List Nat) (l : List (String × Nat)) :
    List.Perm (sortEntries order l) l := by
  induction l with
  | nil => exact List.Perm.refl _
  | cons x xs ih =>
      exact List.Perm.trans (insertEntry_perm order x (sortEntries order xs))
        (List.Perm.cons x ih)

theorem foldl_setKey_map {β : Type} (f : String × Nat → β) :
    ∀ (l : List (String × Nat)) (acc : List (String × β)),
      (l.map Prod.fst).Nodup →
      (∀ p ∈ l, p.1 ∉ keysOf acc) →
      l.foldl (fun a p => setKey a p.1 (f p)) acc
        = acc ++ l.map (fun p => (p.1, f p)) := by
  intro l
  induction l with
  | nil => intro acc _ _; simp
  | cons p l ih =>
      intro acc hnd hfresh
      rw [List.map_cons, List.nodup_cons] at hnd
      simp only [List.foldl_cons]
      rw [setKey_of_not_mem acc p.1 (f p) (hfresh p (List.mem_cons_self p l))]
      rw [ih (acc ++ [(p.1, f p)]) hnd.2 ?_]
      · simp
      intro q hq
      rw [keysOf_append]
      simp only [List.mem_append]
      push_neg
      refine ⟨hfresh q (List.mem_cons_of_mem p hq), ?_⟩
      intro hmem
      have hq1 : q.1 = p.1 := by
        simpa [keysOf] using hmem
      exact hnd.1 (hq1 ▸ List.mem_map_of_mem Prod.fst hq)

theorem filterMap_eq_nil_of {α γ : Type} (g : α → Option γ) :
    ∀ l : List α, (∀ a ∈ l, g a = none) → l.filterMap g = [] := by
  intro l
  induction l with
  | nil => intro _; rfl
  | cons a l ih =>
      intro h
      rw [List.filterMap_cons, h a (List.mem_cons_self a l)]
      exact ih (fun b hb => h b (List.mem_cons_of_mem a hb))

theorem filterMap_map_eq {α β γ : Type} (f : α → β) (g : β → Option γ) :
    ∀ l : List α, (l.map f).filterMap g = l.filterMap (fun a => g (f a)) := by
  intro l
  induction l with
  | nil => rfl
  | cons a l ih =>
      rw [List.map_cons, List.filterMap_cons, List.filterMap_cons]
      cases h : g (f a) with
      | none => rw [ih]
      | some c => rw [ih]

theorem filterMap_single_key {γ : Type} (g : String × Nat → Option γ) :
    ∀ (l : List (String × Nat)) (kbad : String) (nbad : Nat) (c : γ),
      (l.map Prod.fst).Nodup →
      (kbad, nbad) ∈ l →
      g (kbad, nbad) = some c →
      (∀ p ∈ l, p.1 ≠ kbad → g p = none) →
      l.filterMap g = [c] := by
  intro l
  induction l with
  | nil =>
      intro kbad nbad c _ hmem _ _
      cases hmem
  | cons p l ih =>
      intro kbad nbad c hnd hmem hc hok
      rw [List.map_cons, List.nodup_cons] at hnd
      rcases List.mem_cons.mp hmem with h | h
      · have hpfst : p.1 = kbad := by rw [← h]
        have hnil : l.filterMap g = [] := by
          apply filterMap_eq_nil_of
          intro q hq
          apply hok q (List.mem_cons_of_mem p hq)
          intro hqk
          have hql : q.1 ∈ l.map Prod.fst := List.mem_map_of_mem Prod.fst hq
          rw [hqk, ← hpfst] at hql
          exact hnd.1 hql
        rw [List.filterMap_cons, ← h, hc]
        show c :: l.filterMap g = [c]
        rw [hnil]
      · have hpk : p.1 ≠ kbad := by
          intro hEq
          have hkl : kbad ∈ l.map Prod.fst := by
            have := List.mem_map_of_mem Prod.fst h
            simpa using this
          rw [hEq] at hnd
          exact hnd.1 hkl
        rw [List.filterMap_cons, hok p (List.mem_cons_self p l) hpk]
        exact ih kbad nbad c hnd.2 h hc
          (fun q hq => hok q (List.mem_cons_of_mem p hq))

theorem settleAll_length (rs : List (String × Except Thrown Value)) :
    (settleAll rs).fulfilled.length + (settleAll rs).failures.length
      = rs.length := by
  induction rs with
  | nil => rfl
  | cons p l ih =>
      obtain ⟨k, r⟩ := p
      simp only [settleAll, List.filterMap_cons] at ih ⊢
      cases r with
      | ok v =>
          simp only [List.length_cons]
          omega
      | error er =>
          simp only [List.length_cons]
          omega

theorem settleAll_single_error (f : String × Nat → Except Thrown Value)
    (S : List (String × Nat)) (kbad : String) (nbad : Nat) (e : Thrown)
    (hnd : (S.map Prod.fst).Nodup)
    (hmem : (kbad, nbad) ∈ S)
    (hbad : f (kbad, nbad) = .error e)
    (hok : ∀ p ∈ S, p.1 ≠ kbad → ∃ v, f p = .ok v) :
    (settleAll (S.map (fun p => (p.1, f p)))).failures = [(kbad, e)]
    ∧ (settleAll (S.map (fun p => (p.1, f p)))).fulfilled.length = S.length - 1
    ∧ (∀ q ∈ (settleAll (S.map (fun p => (p.1, f p)))).fulfilled,
        ∃ n, (q.1, n) ∈ S ∧ f (q.1, n) = Except.ok q.2)
    ∧ (∀ p ∈ S, p.1 ≠ kbad →
        ∃ v, f p = Except.ok v
          ∧ (p.1, v) ∈ (settleAll (S.map (fun p => (p.1, f p)))).fulfilled) := by
  have hfail : (settleAll (S.map (fun p => (p.1, f p)))).failures = [(kbad, e)] := by
    simp only [settleAll]
    rw [filterMap_map_eq]
    apply filterMap_single_key _ S kbad nbad (kbad, e) hnd hmem
    · show (match f (kbad, nbad) with
        | .error er => some (kbad, er)
        | .ok _ => none) = some (kbad, e)
      rw [hbad]
    · intro p hp hpk
      obtain ⟨v, hv⟩ := hok p hp hpk
      show (match f p with
        | .error er => some (p.1, er)
        | .ok _ => none) = none
      rw [hv]
  have hlen := settleAll_length (S.map (fun p => (p.1, f p)))
  rw [List.length_map, hfail] at hlen
  simp only [List.length_cons, List.length_nil] at hlen
  refine ⟨hfail, by omega, ?_, ?_⟩
  · intro q hq
    simp only [settleAll] at hq
    rw [filterMap_map_eq] at hq
    rcases List.mem_filterMap.mp hq with ⟨p, hpS, hgp⟩
    obtain ⟨k, n⟩ := p
    have hgp2 : (match f (k, n) with
        | .ok v => some (k, v)
        | .error _ => none) = some q := hgp
    cases hf : f (k, n) with
    | error er =>
        rw [hf] at hgp2
        exact Option.noConfusion hgp2
    | ok v =>
        rw [hf] at hgp2
        have hqe : (k, v) = q := by
          injection hgp2
        refine ⟨n, ?_, ?_⟩
        · rw [← hqe]
          exact hpS
        · rw [← hqe]
          exact hf
  · intro p hp hpk
    obtain ⟨v, hv⟩ := hok p hp hpk
    refine ⟨v, hv, ?_⟩
    simp only [settleAll]
    rw [filterMap_map_eq]
    apply List.mem_filterMap.mpr
    refine ⟨p, hp, ?_⟩
    show (match f p with
      | .ok w => some (p.1, w)
      | .error _ => none) = some (p.1, v)
    rw [hv]

/-- C7: for every batch of declarations whose keys are distinct and of
which exactly one (the entry named `kbad`, referencing node `nbad`)
throws during rendering, the batch driver returns exactly one rejection
entry, carrying that key and the thrown value; the number of fulfilled
entries is the batch size minus one; every fulfilled entry holds the
genuine rendering result of one of the batch's declarations; and every
declaration other than the failing one has its (unaffected) result
collected among the fulfilled entries — so one failure never hides
another declaration's outcome. -/
theorem claim_C7 :
    ∀ (env : Env) (fuel : Nat) (nodeOf : Nat → JNode)
      (mod : List (String × DepNode)) (kbad : String) (nbad : Nat) (e : Thrown),
      (mod.map Prod.fst).Nodup →
      (kbad, nbad) ∈ mod.map (fun p => (p.1, DepNode.getVNode p.2)) →
      renderToObject env fuel (nodeOf nbad) [] = .error e →
      (∀ p ∈ mod.map (fun p => (p.1, DepNode.getVNode p.2)), p.1 ≠ kbad →
        ∃ v, renderToObject env fuel (nodeOf p.2) [] = .ok v) →
      (renderFile env fuel nodeOf mod).failures = [(kbad, e)]
      ∧ (renderFile env fuel nodeOf mod).fulfilled.length = mod.length - 1
      ∧ (renderFile env fuel nodeOf mod).fulfilled.length
          + (renderFile env fuel nodeOf mod).failures.length = mod.length
      ∧ (∀ q ∈ (renderFile env fuel nodeOf mod).fulfilled,
          ∃ n, (q.1, n) ∈ mod.map (fun p => (p.1, DepNode.getVNode p.2))
            ∧ renderToObject env fuel (nodeOf n) [] = .ok q.2)
      ∧ (∀ p ∈ mod.map (fun p => (p.1, DepNode.getVNode p.2)), p.1 ≠ kbad →
          ∃ v, renderToObject env fuel (nodeOf p.2) [] = .ok v
            ∧ (p.1, v) ∈ (renderFile env fuel nodeOf mod).fulfilled) := by
  intro env fuel nodeOf mod kbad nbad e hnd hmem hbad hok
  have hmapfst : ((mod.map (fun p => (p.1, DepNode.getVNode p.2))).map Prod.fst)
      = mod.map Prod.fst := by
    rw [List.map_map]
    rfl
  set ord := (unravelOrderOfDependencies (mod.map Prod.snd)).map DepNode.getVNode
    with hord
  set E := mod.map (fun p => (p.1, DepNode.getVNode p.2)) with hEdef
  set S := sortEntries ord E with hSdef
  have hperm : List.Perm S E := sortEntries_perm ord E
  have hndE : (E.map Prod.fst).Nodup := by
    rw [hEdef, hmapfst]
    exact hnd
  have hndS : (S.map Prod.fst).Nodup := ((hperm.map Prod.fst).nodup_iff).mpr hndE
  have hmemS : (kbad, nbad) ∈ S := hperm.mem_iff.mpr hmem
  have hokS : ∀ p ∈ S, p.1 ≠ kbad →
      ∃ v, renderToObject env fuel (nodeOf p.2) [] = .ok v :=
    fun p hp => hok p (hperm.mem_iff.mp hp)
  have hkey := settleAll_single_error
    (fun p => renderToObject env fuel (nodeOf p.2) []) S kbad nbad e
    hndS hmemS hbad hokS
  have hfoldl : S.foldl
      (fun acc p => setKey acc p.1 (renderToObject env fuel (nodeOf p.2) []))
      ([] : List (String × Except Thrown Value))
      = S.map (fun p => (p.1, renderToObject env fuel (nodeOf p.2) [])) := by
    have h := foldl_setKey_map
      (fun p => renderToObject env fuel (nodeOf p.2) []) S [] hndS
      (fun p _ => by simp [keysOf])
    exact h.trans (List.nil_append _)
  have hRF : renderFile env fuel nodeOf mod
      = settleAll
          (S.map (fun p => (p.1, renderToObject env fuel (nodeOf p.2) []))) :=
    congrArg settleAll hfoldl
  rw [hRF]
  refine ⟨hkey.1, ?_, ?_, ?_, ?_⟩
  · rw [hkey.2.1, hperm.length_eq, hEdef, List.length_map]
  · have h := settleAll_length
      (S.map (fun p => (p.1, renderToObject env fuel (nodeOf p.2) [])))
    rw [List.length_map, hperm.length_eq, hEdef, List.length_map] at h
    exact h
  · intro q hq
    obtain ⟨n, hnS, hfn⟩ := hkey.2.2.1 q hq
    exact ⟨n, hperm.mem_iff.mp hnS, hfn⟩
  · intro p hp hpk
    obtain ⟨v, hv, hvmem⟩ := hkey.2.2.2 p (hperm.mem_iff.mpr hp) hpk
    exact ⟨v, hv, hvmem⟩

/-- Witness for C7: a module exporting `a` (a plain string node, which
renders fine) and `b` (a component that throws `Error("boom")`) settles
to exactly one rejection, for `b`, and one fulfilled entry. -/
theorem claim_C7_witness :
    (renderFile envBoom 1
        (fun n => if n = 1 then JNode.leafStr "hello"
                  else JNode.elem (Tag.comp "C") [] [])
        [("a", DepNode.vnode 1), ("b", DepNode.vnode 2)]).failures
      = [("b", Thrown.origin "boom" ["C"])]
    ∧ (renderFile envBoom 1
        (fun n => if n = 1 then JNode.leafStr "hello"
                  else JNode.elem (Tag.comp "C") [] [])
        [("a", DepNode.vnode 1), ("b", DepNode.vnode 2)]).fulfilled.length
      = 1 := by
  have hok : ∀ p ∈ ([("a", DepNode.vnode 1), ("b", DepNode.vnode 2)]).map
        (fun p => (p.1, DepNode.getVNode p.2)), p.1 ≠ "b" →
      ∃ v, renderToObject envBoom 1
        ((fun n => if n = 1 then JNode.leafStr "hello"
                   else JNode.elem (Tag.comp "C") [] []) p.2) [] = .ok v := by
    intro p hp hpk
    simp only [List.map_cons, List.map_nil, DepNode.getVNode] at hp
    rcases List.mem_cons.mp hp with h1 | h1
    · refine ⟨Value.str "hello", ?_⟩
      rw [h1]
      rfl
    · rcases List.mem_cons.mp h1 with h2 | h2
      · exact absurd (by rw [h2]) hpk
      · cases h2
  have h := claim_C7 envBoom 1
    (fun n => if n = 1 then JNode.leafStr "hello"
              else JNode.elem (Tag.comp "C") [] [])
    [("a", DepNode.vnode 1), ("b", DepNode.vnode 2)] "b" 2
    (Thrown.origin "boom" ["C"])
    (by decide)
    (by simp [DepNode.getVNode])
    rfl
    hok
  refine ⟨h.1, ?_⟩
  rw [h.2.1]
  rfl

/-! ## Purity of `deepMerge` (heap model) -/

/-- Primitive (non-reference) JavaScript values, which are copied by
value and cannot be mutated. -/
inductive Prim where
  | nullP
  | boolP (b : Bool)
  | numP (n : JSNum)
  | strP (s : String)
deriving DecidableEq, Repr

/-- A JavaScript value as a reference semantics sees it: either a
primitive, or a reference to a heap-allocated object. -/
inductive HVal where
  | prim (p : Prim)
  | ref (a : Nat)
deriving DecidableEq, Repr

/-- Heap-allocated compound objects: plain objects (insertion-ordered
association lists, values possibly references) and arrays. -/
inductive HObj where
  | objO (es : List (String × HVal))
  | arrO (xs : List HVal)
deriving DecidableEq, Repr

/-- A mutable store: the next fresh address and the contents of every
allocated address. -/
structure Heap where
  next : Nat
  mem : Nat → Option HObj

/-- Allocation of a new object at the next fresh address. -/
def alloc (h : Heap) (o : HObj) : Heap × Nat :=
  ({ next := h.next + 1
   , mem := fun b => if b = h.next then some o else h.mem b }, h.next)

/-- Destructive overwrite of the object stored at an address. -/
def writeObj (h : Heap) (a : Nat) (o : HObj) : Heap :=
  { next := h.next, mem := fun b => if b = a then some o else h.mem b }

/-- Heap-level `isObject`: `item && typeof item === 'object' &&
!Array.isArray(item)` — a reference to a plain (non-array) object.
Primitives (including null) fail the test. -/
def isObjectH (h : Heap) (v : HVal) : Bool :=
  match v with
  | .ref a =>
      match h.mem a with
      | some (.objO _) => true
      | _ => false
  | .prim _ => false

/-- Heap-level `Array.isArray`. -/
def isArrayH (h : Heap) (v : HVal) : Bool :=
  match v with
  | .ref a =>
      match h.mem a with
      | some (.arrO _) => true
      | _ => false
  | .prim _ => false

/-- Heap-level object spread `{...target}`: the own enumerable entries of
the value, as in `spreadEntries` (arrays and strings spread to
index-keyed entries, other primitives to nothing).  Entry values are
copied shallowly: references stay shared. -/
def spreadEntriesH (h : Heap) (v : HVal) : List (String × HVal) :=
  match v with
  | .ref a =>
      match h.mem a with
      | some (.objO es) => es
      | some (.arrO xs) =>
          ((List.range xs.length).zip xs).map (fun p => (toString p.1, p.2))
      | none => []
  | .prim (.strP s) =>
      ((List.range s.length).zip s.toList).map
        (fun p => (toString p.1, HVal.prim (Prim.strP p.2.toString)))
  | .prim _ => []

/-- Heap-level property read `v[k]` on a plain object (the only shape it
is applied to inside `deepMerge`, whose guard ensures `target`, `source`
and `output` are plain objects). -/
def getProp (h : Heap) (v : HVal) (k : String) : Option HVal :=
  match v with
  | .ref a =>
      match h.mem a with
      | some (.objO es) => getKey es k
      | _ => none
  | .prim _ => none

/-- Heap-level property write `h[a][k] = v` on the plain object stored
at `a` (a no-op on other shapes; `deepMerge` writes only to its own
freshly allocated `output` object). -/
def setProp (h : Heap) (a : Nat) (k : String) (v : HVal) : Heap :=
  match h.mem a with
  | some (.objO es) => writeObj h a (.objO (setKey es k v))
  | _ => h

/-- Heap-level `Object.keys(source)`. -/
def sourceKeysH (h : Heap) (v : HVal) : List String :=
  match v with
  | .ref a =>
      match h.mem a with
      | some (.objO es) => keysOf es
      | some (.arrO xs) => (List.range xs.length).map toString
      | none => []
  | .prim (.strP s) => (List.range s.length).map toString
  | .prim _ => []

/-- Heap-level read of an array's elements (used by the concatenation
branch, where `Array.isArray` has already succeeded). -/
def readArrH (h : Heap) (v : HVal) : List HVal :=
  match v with
  | .ref a =>
      match h.mem a with
      | some (.arrO xs) => xs
      | _ => []
  | .prim _ => []

/-- The `Object.keys(source).forEach(key => ...)` loop body of
`deepMerge` (lines 234-252), threading the heap through the iterations
and aborting on a thrown error.  `recur` is the recursive
`deepMerge(target[key], source[key])` call; all writes target `aout`,
the freshly allocated `output` object, or freshly allocated arrays.  A
key absent from `source` is skipped (unreachable: the keys iterated are
exactly `Object.keys(source)`). -/
def mergeKeysH (recur : Heap → HVal → HVal → Heap × Except String HVal)
    (target source : HVal) (aout : Nat) :
    Heap → List String → Heap × Except String Unit
  | h, [] => (h, .ok ())
  | h, k :: ks =>
      match getProp h source k with
      | none => mergeKeysH recur target source aout h ks
      | some sv =>
          if isObjectH h sv then
            match getProp h target k with
            | none =>
                mergeKeysH recur target source aout (setProp h aout k sv) ks
            | some tv =>
                match recur h tv sv with
                | (h2, .error e) => (h2, .error e)
                | (h2, .ok mv) =>
                    mergeKeysH recur target source aout (setProp h2 aout k mv) ks
          else if isArrayH h sv then
            let elems :=
              match getProp h target k with
              | some tv =>
                  if isArrayH h tv then readArrH h tv ++ readArrH h sv
                  else readArrH h sv
              | none => readArrH h sv
            let p := alloc h (.arrO elems)
            mergeKeysH recur target source aout (setProp p.1 aout k (.ref p.2)) ks
          else
            match getProp h (.ref aout) k with
            | some _ => (h, .error (mergeErrorMessage k))
            | none =>
                mergeKeysH recur target source aout (setProp h aout k sv) ks

/-- Reference-semantics `deepMerge`, on an explicit heap and with fuel
bounding the recursion depth (JS would overflow the call stack on the
heaps a depth bound excludes).  `const output = {...target}` allocates a
fresh object; when both inputs are plain objects the key loop runs,
otherwise `output` is returned as is. -/
def deepMergeH : Nat → Heap → HVal → HVal → Heap × Except String HVal
  | 0, h, _, _ => (h, .error "Maximum call stack size exceeded")
  | fuel + 1, h, target, source =>
      let p := alloc h (.objO (spreadEntriesH h target))
      if isObjectH p.1 target && isObjectH p.1 source then
        match mergeKeysH (fun h2 t s => deepMergeH fuel h2 t s) target source p.2
            p.1 (sourceKeysH p.1 source) with
        | (h2, .ok _) => (h2, .ok (.ref p.2))
        | (h2, .error e) => (h2, .error e)
      else
        (p.1, .ok (.ref p.2))

theorem alloc_fst_next (h : Heap) (o : HObj) : (alloc h o).1.next = h.next + 1 :=
  rfl

theorem alloc_snd (h : Heap) (o : HObj) : (alloc h o).2 = h.next :=
  rfl

theorem alloc_mem_ne (h : Heap) (o : HObj) (b : Nat) (hb : b ≠ h.next) :
    (alloc h o).1.mem b = h.mem b := by
  simp [alloc, hb]

theorem setProp_next (h : Heap) (a : Nat) (k : String) (v : HVal) :
    (setProp h a k v).next = h.next := by
  unfold setProp
  cases hm : h.mem a with
  | none => rfl
  | some o => cases o <;> rfl

theorem setProp_mem_ne (h : Heap) (a : Nat) (k : String) (v : HVal)
    (b : Nat) (hb : b ≠ a) : (setProp h a k v).mem b = h.mem b := by
  unfold setProp
  cases hm : h.mem a with
  | none => rfl
  | some o =>
      cases o with
      | objO es => simp [writeObj, hb]
      | arrO xs => rfl

theorem frame_trans {h1 h2 h3 : Heap} {aout : Nat}
    (a1 : h1.next ≤ h2.next)
    (b1 : ∀ a, a < h1.next → a ≠ aout → h2.mem a = h1.mem a)
    (a2 : h2.next ≤ h3.next)
    (b2 : ∀ a, a < h2.next → a ≠ aout → h3.mem a = h2.mem a) :
    h1.next ≤ h3.next
    ∧ ∀ a, a < h1.next → a ≠ aout → h3.mem a = h1.mem a :=
  ⟨Nat.le_trans a1 a2, fun a ha hne =>
    (b2 a (Nat.lt_of_lt_of_le ha a1) hne).trans (b1 a ha hne)⟩

theorem frame_setProp (h : Heap) (aout : Nat) (k : String) (v : HVal) :
    h.next ≤ (setProp h aout k v).next
    ∧ ∀ a, a < h.next → a ≠ aout → (setProp h aout k v).mem a = h.mem a :=
  ⟨Nat.le_of_eq (setProp_next h aout k v).symm,
   fun a _ hne => setProp_mem_ne h aout k v a hne⟩


theorem frame_alloc_set {h : Heap} {o : HObj} {aout : Nat} {k : String} :
    h.next ≤ (setProp (alloc h o).1 aout k (HVal.ref (alloc h o).2)).next
    ∧ ∀ a, a < h.next → a ≠ aout →
        (setProp (alloc h o).1 aout k (HVal.ref (alloc h o).2)).mem a = h.mem a := by
  constructor
  · rw [setProp_next, alloc_fst_next]
    exact Nat.le_succ _
  · intro a ha hne
    rw [setProp_mem_ne _ _ _ _ _ hne, alloc_mem_ne h o a (Nat.ne_of_lt ha)]

theorem mergeKeysH_frame
    (recur : Heap → HVal → HVal → Heap × Except String HVal)
    (hrec : ∀ h t s, h.next ≤ (recur h t s).1.next
      ∧ ∀ a, a < h.next → (recur h t s).1.mem a = h.mem a)
    (target source : HVal) (aout : Nat) :
    ∀ (ks : List String) (h : Heap),
      h.next ≤ (mergeKeysH recur target source aout h ks).1.next
      ∧ ∀ a, a < h.next → a ≠ aout →
          (mergeKeysH recur target source aout h ks).1.mem a = h.mem a := by
  intro ks
  induction ks with
  | nil => intro h; exact ⟨Nat.le_refl _, fun _ _ _ => rfl⟩
  | cons k ks ih =>
      intro h
      simp only [mergeKeysH]
      split
      · exact ih h
      rename_i sv hs
      split
      · split
        · exact frame_trans (frame_setProp h aout k sv).1
            (frame_setProp h aout k sv).2 (ih _).1 (ih _).2
        · rename_i tv ht
          split
          · rename_i h2 e heq
            have hx := hrec h tv sv
            rw [heq] at hx
            exact ⟨hx.1, fun a ha _ => hx.2 a ha⟩
          · rename_i h2 mv heq
            have hx := hrec h tv sv
            rw [heq] at hx
            exact frame_trans hx.1 (fun a ha _ => hx.2 a ha)
              (frame_trans (frame_setProp h2 aout k mv).1
                (frame_setProp h2 aout k mv).2 (ih _).1 (ih _).2).1
              (frame_trans (frame_setProp h2 aout k mv).1
                (frame_setProp h2 aout k mv).2 (ih _).1 (ih _).2).2
      · split
        · exact frame_trans frame_alloc_set.1 frame_alloc_set.2
            (ih _).1 (ih _).2
        · split
          · exact ⟨Nat.le_refl _, fun _ _ _ => rfl⟩
          · exact frame_trans (frame_setProp h aout k sv).1
              (frame_setProp h aout k sv).2 (ih _).1 (ih _).2

theorem deepMergeH_frame :
    ∀ (fuel : Nat) (h : Heap) (target source : HVal),
      h.next ≤ (deepMergeH fuel h target source).1.next
      ∧ ∀ a, a < h.next → (deepMergeH fuel h target source).1.mem a = h.mem a := by
  intro fuel
  induction fuel with
  | zero => intro h t s; exact ⟨Nat.le_refl _, fun _ _ => rfl⟩
  | succ fuel ih =>
      intro h target source
      simp only [deepMergeH]
      split
      · split
        · rename_i h2 u heq
          have hmk := mergeKeysH_frame (fun h2 t s => deepMergeH fuel h2 t s)
            ih target source (alloc h (HObj.objO (spreadEntriesH h target))).2
            (sourceKeysH (alloc h (HObj.objO (spreadEntriesH h target))).1 source)
            (alloc h (HObj.objO (spreadEntriesH h target))).1
          rw [heq] at hmk
          constructor
          · exact Nat.le_trans (Nat.le_succ _) hmk.1
          · intro a ha
            have hne : a ≠ (alloc h (HObj.objO (spreadEntriesH h target))).2 := by
              rw [alloc_snd]
              exact Nat.ne_of_lt ha
            have h1 := hmk.2 a (Nat.lt_succ_of_lt ha) hne
            rw [h1, alloc_mem_ne h _ a (Nat.ne_of_lt ha)]
        · rename_i h2 e heq
          have hmk := mergeKeysH_frame (fun h2 t s => deepMergeH fuel h2 t s)
            ih target source (alloc h (HObj.objO (spreadEntriesH h target))).2
            (sourceKeysH (alloc h (HObj.objO (spreadEntriesH h target))).1 source)
            (alloc h (HObj.objO (spreadEntriesH h target))).1
          rw [heq] at hmk
          constructor
          · exact Nat.le_trans (Nat.le_succ _) hmk.1
          · intro a ha
            have hne : a ≠ (alloc h (HObj.objO (spreadEntriesH h target))).2 := by
              rw [alloc_snd]
              exact Nat.ne_of_lt ha
            have h1 := hmk.2 a (Nat.lt_succ_of_lt ha) hne
            rw [h1, alloc_mem_ne h _ a (Nat.ne_of_lt ha)]
      · exact ⟨Nat.le_succ _, fun a ha => alloc_mem_ne h _ a (Nat.ne_of_lt ha)⟩

/-- A value whose references all point below a bound (into the allocated
part of a heap). -/
def refBelow (n : Nat) : HVal → Bool
  | .ref a => a < n
  | .prim _ => true

/-- An object whose stored values all point below a bound. -/
def objRefsBelow (n : Nat) : HObj → Bool
  | .objO es => es.all (fun p => refBelow n p.2)
  | .arrO xs => xs.all (refBelow n)

/-- A closed heap: every allocated object points only at allocated
addresses. -/
def heapClosed (h : Heap) : Bool :=
  (List.range h.next).all (fun a =>
    match h.mem a with
    | none => true
    | some o => objRefsBelow h.next o)

/-- Structural read-back of a heap value as a plain `Value`, up to a
depth bound (a dangling reference or exhausted depth reads as null).
Two heaps that agree on every address reachable from a value give it the
same read-back at every depth, which is what "structurally unchanged,
including at nested depth" means under reference semantics. -/
def readBackV : Nat → Heap → HVal → Value
  | _, _, .prim .nullP => .null
  | _, _, .prim (.boolP b) => .bool b
  | _, _, .prim (.numP n) => .num n
  | _, _, .prim (.strP s) => .str s
  | 0, _, .ref _ => .null
  | fuel + 1, h, .ref a =>
      match h.mem a with
      | none => .null
      | some (.objO es) => .obj (es.map (fun p => (p.1, readBackV fuel h p.2)))
      | some (.arrO xs) => .arr (xs.map (readBackV fuel h))

theorem heapClosed_spec (h : Heap) (hcl : heapClosed h = true) (a : Nat)
    (ha : a < h.next) (o : HObj) (hm : h.mem a = some o) :
    objRefsBelow h.next o = true := by
  unfold heapClosed at hcl
  rw [List.all_eq_true] at hcl
  have h2 : (match h.mem a with
      | none => true
      | some o => objRefsBelow h.next o) = true :=
    hcl a (List.mem_range.mpr ha)
  rw [hm] at h2
  exact h2

theorem map_congr_mem {α β : Type} (f g : α → β) :
    ∀ l : List α, (∀ a ∈ l, f a = g a) → l.map f = l.map g := by
  intro l
  induction l with
  | nil => intro _; rfl
  | cons a l ih =>
      intro h
      rw [List.map_cons, List.map_cons, h a (List.mem_cons_self a l),
        ih (fun b hb => h b (List.mem_cons_of_mem a hb))]

theorem readBackV_frame (h hp : Heap)
    (hmem : ∀ a, a < h.next → hp.mem a = h.mem a)
    (hcl : heapClosed h = true) :
    ∀ (fuel : Nat) (v : HVal), refBelow h.next v = true →
      readBackV fuel hp v = readBackV fuel h v := by
  intro fuel
  induction fuel with
  | zero =>
      intro v _
      cases v with
      | prim p => cases p <;> rfl
      | ref a => rfl
  | succ fuel ih =>
      intro v hv
      cases v with
      | prim p => cases p <;> rfl
      | ref a =>
          have ha : a < h.next := by
            simpa [refBelow] using hv
          show (match hp.mem a with
              | none => Value.null
              | some (.objO es) =>
                  Value.obj (es.map (fun (p : String × HVal) =>
                    (p.1, readBackV fuel hp p.2)))
              | some (.arrO xs) => Value.arr (xs.map (readBackV fuel hp)))
            = (match h.mem a with
              | none => Value.null
              | some (.objO es) =>
                  Value.obj (es.map (fun (p : String × HVal) =>
                    (p.1, readBackV fuel h p.2)))
              | some (.arrO xs) => Value.arr (xs.map (readBackV fuel h)))
          rw [hmem a ha]
          cases hm : h.mem a with
          | none => rfl
          | some o =>
              have hob := heapClosed_spec h hcl a ha o hm
              cases o with
              | objO es =>
                  simp only [objRefsBelow] at hob
                  rw [List.all_eq_true] at hob
                  show Value.obj (es.map (fun p => (p.1, readBackV fuel hp p.2)))
                    = Value.obj (es.map (fun p => (p.1, readBackV fuel h p.2)))
                  refine congrArg Value.obj (map_congr_mem _ _ es ?_)
                  intro p hpmem
                  show (p.1, readBackV fuel hp p.2) = (p.1, readBackV fuel h p.2)
                  rw [ih p.2 (hob p hpmem)]
              | arrO xs =>
                  simp only [objRefsBelow] at hob
                  rw [List.all_eq_true] at hob
                  show Value.arr (xs.map (readBackV fuel hp))
                    = Value.arr (xs.map (readBackV fuel h))
                  refine congrArg Value.arr (map_congr_mem _ _ xs ?_)
                  intro x hx
                  exact ih x (hob x hx)

/-- C9: `deepMerge` is pure with respect to its inputs.  Under reference
semantics every heap object allocated before the call — in particular
`target`, `source`, and everything nested inside them — is left exactly
as it was: the allocation counter only grows, every pre-existing address
keeps its exact contents, and consequently (for a closed heap) the
structural read-back of `target` and of `source` at every depth is
unchanged.  All of `deepMerge`'s writes go to its freshly allocated
`output` object and to freshly allocated arrays. -/
theorem claim_C9 :
    ∀ (fuel : Nat) (h : Heap) (target source : HVal),
      h.next ≤ (deepMergeH fuel h target source).1.next
      ∧ (∀ a, a < h.next →
          (deepMergeH fuel h target source).1.mem a = h.mem a)
      ∧ (heapClosed h = true → refBelow h.next target = true →
          refBelow h.next source = true →
          ∀ depth,
            readBackV depth (deepMergeH fuel h target source).1 target
              = readBackV depth h target
            ∧ readBackV depth (deepMergeH fuel h target source).1 source
              = readBackV depth h source) := by
  intro fuel h target source
  have hf := deepMergeH_frame fuel h target source
  refine ⟨hf.1, hf.2, ?_⟩
  intro hcl ht hs depth
  exact ⟨readBackV_frame h _ hf.2 hcl depth target ht,
    readBackV_frame h _ hf.2 hcl depth source hs⟩

/-- A concrete closed heap holding two nested plain objects:
address 0 is `{a: ref 1}` with `ref 1 = {x: 1}` (the target), address 2
is `{a: ref 3, b: "s"}` with `ref 3 = {y: 2}` (the source). -/
def exHeap : Heap :=
  { next := 4
  , mem := fun a =>
      if a = 0 then some (.objO [("a", .ref 1)])
      else if a = 1 then some (.objO [("x", .prim (.numP (.finite 1)))])
      else if a = 2 then some (.objO [("a", .ref 3), ("b", .prim (.strP "s"))])
      else if a = 3 then some (.objO [("y", .prim (.numP (.finite 2)))])
      else none }

/-- Witness for C9: merging the two nested objects of `exHeap` (which
recursively merges the objects behind their shared key) leaves the
allocation counter no smaller, the object at address 1 — nested inside
the target — bit-for-bit unchanged, and the full structural read-back of
both inputs unchanged at depth 10. -/
theorem claim_C9_witness :
    exHeap.next ≤ (deepMergeH 4 exHeap (HVal.ref 0) (HVal.ref 2)).1.next
    ∧ (deepMergeH 4 exHeap (HVal.ref 0) (HVal.ref 2)).1.mem 1 = exHeap.mem 1
    ∧ readBackV 10 (deepMergeH 4 exHeap (HVal.ref 0) (HVal.ref 2)).1 (HVal.ref 0)
        = readBackV 10 exHeap (HVal.ref 0)
    ∧ readBackV 10 (deepMergeH 4 exHeap (HVal.ref 0) (HVal.ref 2)).1 (HVal.ref 2)
        = readBackV 10 exHeap (HVal.ref 2) := by
  have h := claim_C9 4 exHeap (HVal.ref 0) (HVal.ref 2)
  exact ⟨h.1, h.2.1 1 (by decide),
    (h.2.2 rfl rfl rfl 10).1, (h.2.2 rfl rfl rfl 10).2⟩
